import Mathlib

/-!
Verification of the epic/bead hierarchy and tree-state engine of the
beads-ui dashboard.

The development shallowly embeds the TypeScript source:

* `lib/bd.ts` / `lib/types.ts`: `mapPriority`, `unmapPriority`, `mapType`,
  the raw tracker record `BdBead` and the in-memory record `Bead`.
* `actions/epics.ts`: `convertBead`, `buildBeadWithChildren`,
  `buildEpicHierarchy`.
* the main page (epic viewer): `matchesBead`, `filterBead`, `filterEpic`,
  `filterEpics`, `compareBead`, `sortBeads`, `sortEpics`, the
  active/backlog/archived partition, `navigableItems`/`itemIndexMap`,
  `isDescendantOf`, `canMoveEpic`, `updateBeadInEpics` and the optimistic
  status-change handlers.
* `components/bead-detail-panel.tsx`: the per-field save state machine.
* `components/epic-tree.tsx` (drag-and-drop variant): the drop handler.

TypeScript's `Epic` is a `Bead` with an extra `childEpics` list
(structural subtyping); both are modelled by the single inductive `Bead`
below, where a plain bead simply has `childEpics = []` (in TS the field is
absent on non-epics).  Optional arrays (`children?`, `childEpics?`,
`labels?`) are modelled as lists with `[]` for `undefined` — none of the
verified code distinguishes an absent array from an empty one.  JS `Date`
values are modelled by their numeric timestamp (`getTime`), locale string
comparison by lexicographic string order (a consistent total order, which
is all `localeCompare` guarantees), and JS `Map` by an entry list where
the last binding for a key wins, matching `Map.set` overwrite semantics.
JS `Array.prototype.sort` (guaranteed stable) is modelled by the stable
`List.insertionSort`.  `comments`, `blockedBy`/`blocks` and the other
fields never inspected by the verified functions are omitted from the
record: every function below copies the record via spread, so they ride
along unchanged.
-/

/-- Attributes of one issue record (`Bead` in `lib/types.ts`) minus the
recursive `children`/`childEpics` fields.  `type`, `status` and `priority`
are strings in the source (`BeadStatus` admits arbitrary custom statuses);
`updatedAt`/`createdAt` are optional timestamps. -/
structure Attrs where
  id : String
  type : String
  title : String
  description : String
  acceptanceCriteria : Option String
  status : String
  priority : String
  assignee : String
  labels : List String
  parentId : Option String
  createdAt : Option Nat
  updatedAt : Option Nat
deriving DecidableEq, Repr

/-- The in-memory issue tree: `Bead` with its `children` (subtasks) and,
for epics, `childEpics`.  A non-epic bead has `childEpics = []` (the field
does not exist on TS `Bead`; `Epic extends Bead` adds it). -/
inductive Bead where
  | node (attrs : Attrs) (children : List Bead) (childEpics : List Bead)

def Bead.attrs : Bead → Attrs
  | .node a _ _ => a

def Bead.children : Bead → List Bead
  | .node _ cs _ => cs

def Bead.childEpics : Bead → List Bead
  | .node _ _ es => es

def Bead.id (b : Bead) : String := b.attrs.id

def Bead.type (b : Bead) : String := b.attrs.type

def Bead.labels (b : Bead) : List String := b.attrs.labels

/-- In the source an `Epic` is just a `Bead` with `childEpics`. -/
abbrev Epic := Bead

mutual

/-- Boolean structural equality on `Bead` (used to derive `DecidableEq`,
which the `deriving` handler cannot produce for this nested inductive). -/
def Bead.beq : Bead → Bead → Bool
  | .node a cs es, .node a' cs' es' =>
    a == a' && Bead.beqList cs cs' && Bead.beqList es es'

def Bead.beqList : List Bead → List Bead → Bool
  | [], [] => true
  | b :: bs, b' :: bs' => Bead.beq b b' && Bead.beqList bs bs'
  | _, _ => false

end

mutual

/-- Size of a bead tree (for the strong-induction principle). -/
def Bead.sz : Bead → Nat
  | .node _ cs es => 1 + Bead.szList cs + Bead.szList es

def Bead.szList : List Bead → Nat
  | [] => 0
  | b :: bs => Bead.sz b + Bead.szList bs

end

theorem Bead.sz_pos (b : Bead) : 1 ≤ b.sz := by
  cases b with
  | node a cs es => simp [Bead.sz]; omega

theorem Bead.sz_le_szList {c : Bead} {cs : List Bead} (h : c ∈ cs) :
    Bead.sz c ≤ Bead.szList cs := by
  induction cs with
  | nil => cases h
  | cons b bs ih =>
    rcases List.mem_cons.mp h with h | h
    · subst h; simp [Bead.szList]
    · have := ih h
      simp [Bead.szList]; omega

/-- Strong induction over bead trees: to prove `P b`, assume `P` for all
members of `children` and `childEpics`. -/
theorem Bead.inductionOn (P : Bead → Prop)
    (step : ∀ a cs es, (∀ c ∈ cs, P c) → (∀ e ∈ es, P e) → P (.node a cs es)) :
    ∀ b, P b := by
  have key : ∀ n b, Bead.sz b ≤ n → P b := by
    intro n
    induction n with
    | zero => intro b hb; have := Bead.sz_pos b; omega
    | succ n ih =>
      intro b hb
      cases b with
      | node a cs es =>
        refine step a cs es ?_ ?_
        · intro c hc
          have h1 := Bead.sz_le_szList hc
          have h2 : Bead.sz (.node a cs es) = 1 + Bead.szList cs + Bead.szList es := by
            simp [Bead.sz]
          exact ih c (by omega)
        · intro e he
          have h1 := Bead.sz_le_szList he
          have h2 : Bead.sz (.node a cs es) = 1 + Bead.szList cs + Bead.szList es := by
            simp [Bead.sz]
          exact ih e (by omega)
  exact fun b => key (Bead.sz b) b (Nat.le_refl _)

theorem Bead.beq_iff_eq : ∀ a b : Bead, Bead.beq a b = true ↔ a = b := by
  have main : ∀ a : Bead, ∀ b : Bead, Bead.beq a b = true ↔ a = b := by
    intro a
    induction a using Bead.inductionOn with
    | step a cs es ihc ihe =>
      have listCase : ∀ (xs : List Bead), (∀ x ∈ xs, ∀ y, Bead.beq x y = true ↔ x = y) →
          ∀ ys, Bead.beqList xs ys = true ↔ xs = ys := by
        intro xs
        induction xs with
        | nil =>
          intro _ ys; cases ys <;> simp [Bead.beqList]
        | cons x xs ihx =>
          intro hmem ys
          cases ys with
          | nil => simp [Bead.beqList]
          | cons y ys =>
            have h1 := hmem x (List.mem_cons_self x xs) y
            have h2 := ihx (fun z hz => hmem z (List.mem_cons_of_mem x hz)) ys
            simp [Bead.beqList, h1, h2]
      intro b
      cases b with
      | node a' cs' es' =>
        have hcs := listCase cs (fun c hc => ihc c hc) cs'
        have hes := listCase es (fun e he => ihe e he) es'
        simp [Bead.beq, hcs, hes]
        tauto
  exact main

instance : DecidableEq Bead := fun a b =>
  decidable_of_iff (Bead.beq a b = true) (Bead.beq_iff_eq a b)

/-! ### Priority mapping (`lib/bd.ts`: `mapPriority`, `unmapPriority`) -/

/-- The dashboard-side priority (`BeadPriority`, `lib/types.ts`). -/
inductive BeadPriority where
  | critical
  | high
  | medium
  | low
deriving DecidableEq, Repr

/-- `mapPriority` from `lib/bd.ts`: bd priority number → dashboard
priority.  The `switch` sends 0/1/2 to critical/high/medium and
`case 3: case 4: default:` — every other number — to low.
JS numbers here are integers, modelled by `Int`. -/
def mapPriority (priority : Int) : BeadPriority :=
  if priority = 0 then .critical
  else if priority = 1 then .high
  else if priority = 2 then .medium
  else .low

/-- `unmapPriority` from `lib/bd.ts`: dashboard priority → bd number. -/
def unmapPriority : BeadPriority → Int
  | .critical => 0
  | .high => 1
  | .medium => 2
  | .low => 3

/-- C10: the priority mapping round-trips dashboard→tracker→dashboard —
`mapPriority (unmapPriority p) = p` for each of the four dashboard
priorities — while the reverse composition is not the identity:
`mapPriority` collapses every tracker number other than 0, 1, 2 to `low`,
and `unmapPriority low = 3`, so tracker priority 4 comes back as 3. -/
theorem mapPriority_unmapPriority_roundtrip :
    (∀ p : BeadPriority, mapPriority (unmapPriority p) = p) ∧
    (∀ n : Int, n ≠ 0 → n ≠ 1 → n ≠ 2 → mapPriority n = .low) ∧
    unmapPriority (mapPriority 4) ≠ 4 := by
  refine ⟨?_, ?_, ?_⟩
  · intro p; cases p <;> rfl
  · intro n h0 h1 h2
    simp [mapPriority, h0, h1, h2]
  · decide

/-- C10 witness: the unrecognized-number clause at `n = 4` — both `4` and
the out-of-range `7` map to `low`, and `4` does not survive the
tracker→dashboard→tracker round trip. -/
theorem mapPriority_unmapPriority_roundtrip_witness :
    mapPriority 4 = .low ∧ mapPriority 7 = .low ∧ unmapPriority (mapPriority 4) = 3 := by
  refine ⟨?_, ?_, ?_⟩
  · exact mapPriority_unmapPriority_roundtrip.2.1 4 (by decide) (by decide) (by decide)
  · exact mapPriority_unmapPriority_roundtrip.2.1 7 (by decide) (by decide) (by decide)
  · decide

/-! ### Filter engine (main page: `matchesBead`, `filterBead`, `filterEpic`,
`filterEpics`) -/

def Bead.status (b : Bead) : String := b.attrs.status

def Bead.priority (b : Bead) : String := b.attrs.priority

def Bead.assignee (b : Bead) : String := b.attrs.assignee

def Bead.title (b : Bead) : String := b.attrs.title

def Bead.updatedAt (b : Bead) : Option Nat := b.attrs.updatedAt

/-- The `Filters` value object (`filter-bar.tsx`): `status`, `assignee`
and `priority` use the sentinel string `"all"`. -/
structure Filters where
  status : String
  assignee : String
  priority : String
  search : String
  showMessages : Bool
deriving DecidableEq, Repr

/-- JS `toLowerCase`, as a kernel-computable function (ASCII case map,
`Char.toLower` on each character). -/
def strToLower (s : String) : String := String.mk (s.data.map Char.toLower)

/-- JS `String.prototype.includes`: `sub` occurs contiguously in `s`. -/
def strContains (s sub : String) : Bool :=
  (List.range (s.toList.length + 1)).any
    (fun i => sub.toList.isPrefixOf (s.toList.drop i))

/-- `matchesBead` from the epic viewer page: the filter predicate on one
issue.  A JS truthiness test `if (filters.search)` is an emptiness test on
the search string. -/
def matchesBead (bead : Bead) (filters : Filters) : Bool :=
  if !filters.showMessages && bead.type == "message" then false
  else if filters.status != "all" && bead.status != filters.status then false
  else if filters.priority != "all" && bead.priority != filters.priority then false
  else if filters.assignee != "all" && bead.assignee != filters.assignee then false
  else if filters.search != "" then
    let searchLower := strToLower filters.search
    let matchesTitle := strContains (strToLower bead.title) searchLower
    let matchesId := strContains (strToLower bead.id) searchLower
    matchesTitle || matchesId
  else true

mutual

/-- `filterBead`: recursively filter a bead and its children; keep the
bead when it matches or some recursively filtered child survived, with
`children` replaced by the filtered subset (the spread keeps everything
else, in particular `childEpics`, unchanged). -/
def filterBead : Bead → Filters → Option Bead
  | .node a cs es, filters =>
    let filteredChildren := filterBeadList cs filters
    let beadMatches := matchesBead (.node a cs es) filters
    if beadMatches || filteredChildren.length > 0 then
      some (.node a filteredChildren es)
    else
      none

/-- The `children?.map(filterBead).filter(≠ null)` pipeline of
`filterBead`. -/
def filterBeadList : List Bead → Filters → List Bead
  | [], _ => []
  | b :: bs, filters =>
    match filterBead b filters with
    | some b' => b' :: filterBeadList bs filters
    | none => filterBeadList bs filters

end

mutual

/-- `filterEpic`: keep an epic when it matches or has surviving children
or surviving child epics; the `_standalone` pseudo-epic is kept only when
it has surviving children and always gets `childEpics := []`. -/
def filterEpic : Bead → Filters → Option Bead
  | .node a cs es, filters =>
    let filteredChildren := filterBeadList cs filters
    let filteredChildEpics := filterEpicList es filters
    if a.id = "_standalone" then
      if filteredChildren.length = 0 then none
      else some (.node a filteredChildren [])
    else
      let epicMatches := matchesBead (.node a cs es) filters
      if epicMatches || filteredChildren.length > 0 || filteredChildEpics.length > 0 then
        some (.node a filteredChildren filteredChildEpics)
      else
        none

/-- The `childEpics?.map(filterEpic).filter(≠ null) ?? []` pipeline of
`filterEpic`. -/
def filterEpicList : List Bead → Filters → List Bead
  | [], _ => []
  | e :: es, filters =>
    match filterEpic e filters with
    | some e' => e' :: filterEpicList es filters
    | none => filterEpicList es filters

end

/-- `filterEpics`: identity short-circuit when every filter is at its
default, otherwise filter every top-level epic. -/
def filterEpics (epics : List Bead) (filters : Filters) : List Bead :=
  if filters.status = "all" && filters.priority = "all" && filters.assignee = "all" &&
      filters.search = "" && filters.showMessages then
    epics
  else
    filterEpicList epics filters

/-- `Occurs b anc x`: the node `x` occurs in the tree rooted at `b`, and
`anc` is the chain of ancestor ids from `b` down to (excluding) `x`. -/
inductive Occurs : Bead → List String → Bead → Prop where
  | here (b : Bead) : Occurs b [] b
  | viaChild {b c : Bead} {anc : List String} {x : Bead} :
      c ∈ b.children → Occurs c anc x → Occurs b (b.id :: anc) x
  | viaChildEpic {b e : Bead} {anc : List String} {x : Bead} :
      e ∈ b.childEpics → Occurs e anc x → Occurs b (b.id :: anc) x

mutual

/-- Well-formedness of a node sitting in a `children` list: in TS a plain
`Bead` has no `childEpics` field at all, so such nodes carry
`childEpics = []`. -/
def beadWF : Bead → Bool
  | .node _ cs es => es.isEmpty && beadWFList cs

def beadWFList : List Bead → Bool
  | [] => true
  | b :: bs => beadWF b && beadWFList bs

end

mutual

/-- Well-formedness of an epic node: its `children` subtrees are plain
beads, its `childEpics` are well-formed epics, and a `_standalone` node
has no child epics (the hierarchy builder always creates it with
`childEpics: []`). -/
def epicWF : Bead → Bool
  | .node a cs es =>
    (a.id != "_standalone" || es.isEmpty) && beadWFList cs && epicWFList es

def epicWFList : List Bead → Bool
  | [] => true
  | e :: es => epicWF e && epicWFList es

end

theorem beadWF_node {a : Attrs} {cs es : List Bead} (h : beadWF (.node a cs es) = true) :
    es = [] ∧ beadWFList cs = true := by
  simp [beadWF, List.isEmpty_iff] at h
  exact h

theorem beadWFList_mem {cs : List Bead} (h : beadWFList cs = true) :
    ∀ c ∈ cs, beadWF c = true := by
  induction cs with
  | nil => intro c hc; cases hc
  | cons b bs ih =>
    simp [beadWFList] at h
    intro c hc
    rcases List.mem_cons.mp hc with hc | hc
    · subst hc; exact h.1
    · exact ih h.2 c hc

theorem epicWF_node {a : Attrs} {cs es : List Bead} (h : epicWF (.node a cs es) = true) :
    (a.id = "_standalone" → es = []) ∧ beadWFList cs = true ∧ epicWFList es = true := by
  simp [epicWF, List.isEmpty_iff] at h
  refine ⟨?_, h.1.2, h.2⟩
  intro hid
  rcases h.1.1 with h' | h'
  · exact absurd hid h'
  · exact h'

theorem epicWFList_mem {es : List Bead} (h : epicWFList es = true) :
    ∀ e ∈ es, epicWF e = true := by
  induction es with
  | nil => intro e he; cases he
  | cons b bs ih =>
    simp [epicWFList] at h
    intro e he
    rcases List.mem_cons.mp he with he | he
    · subst he; exact h.1
    · exact ih h.2 e he

theorem filterBeadList_mem_of {filters : Filters} {c c' : Bead} {cs : List Bead}
    (hc : c ∈ cs) (h : filterBead c filters = some c') :
    c' ∈ filterBeadList cs filters := by
  induction cs with
  | nil => cases hc
  | cons b bs ih =>
    rcases List.mem_cons.mp hc with hc | hc
    · subst hc
      simp [filterBeadList, h]
    · simp only [filterBeadList]
      cases hb : filterBead b filters with
      | none => exact ih hc
      | some b' => exact List.mem_cons_of_mem _ (ih hc)

theorem filterEpicList_mem_of {filters : Filters} {e e' : Bead} {es : List Bead}
    (he : e ∈ es) (h : filterEpic e filters = some e') :
    e' ∈ filterEpicList es filters := by
  induction es with
  | nil => cases he
  | cons b bs ih =>
    rcases List.mem_cons.mp he with he | he
    · subst he
      simp [filterEpicList, h]
    · simp only [filterEpicList]
      cases hb : filterEpic b filters with
      | none => exact ih he
      | some b' => exact List.mem_cons_of_mem _ (ih he)

theorem filterBeadList_eq_nil_iff {filters : Filters} {cs : List Bead} :
    filterBeadList cs filters = [] ↔ ∀ c ∈ cs, filterBead c filters = none := by
  induction cs with
  | nil => simp [filterBeadList]
  | cons b bs ih =>
    simp only [filterBeadList]
    cases hb : filterBead b filters with
    | none =>
      simp only [ih]
      constructor
      · intro h
        intro c hc
        rcases List.mem_cons.mp hc with hc | hc
        · subst hc; exact hb
        · exact h c hc
      · intro h c hc
        exact h c (List.mem_cons_of_mem _ hc)
    | some b' =>
      simp
      exact fun h => by simp [h] at hb

/-- Single-bead half of the ancestor-preservation argument. -/
theorem filterBead_preserves (filters : Filters) :
    ∀ {b x : Bead} {anc : List String}, Occurs b anc x → beadWF b = true →
    matchesBead x filters = true →
    ∃ x' b', filterBead b filters = some b' ∧ Occurs b' anc x' ∧ x'.attrs = x.attrs := by
  intro b x anc hocc
  induction hocc with
  | here b =>
    intro _ hmatch
    cases b with
    | node a cs es =>
      refine ⟨.node a (filterBeadList cs filters) es, .node a (filterBeadList cs filters) es,
        ?_, Occurs.here _, rfl⟩
      simp [filterBead, hmatch]
  | viaChild hmem hsub ih =>
    intro hwf hmatch
    rename_i b c anc2 x
    cases b with
    | node a cs es =>
      obtain ⟨hes, hcs⟩ := beadWF_node hwf
      have hcwf : beadWF c = true := beadWFList_mem hcs c hmem
      obtain ⟨x', c', hfc, hocc', hattr⟩ := ih hcwf hmatch
      have hc' : c' ∈ filterBeadList cs filters := filterBeadList_mem_of hmem hfc
      have hne : filterBeadList cs filters ≠ [] := List.ne_nil_of_mem hc'
      refine ⟨x', .node a (filterBeadList cs filters) es, ?_, ?_, hattr⟩
      · simp [filterBead, hne]
      · exact Occurs.viaChild (b := .node a (filterBeadList cs filters) es) hc' hocc'
  | viaChildEpic hmem hsub ih =>
    intro hwf hmatch
    rename_i b e anc2 x
    cases b with
    | node a cs es =>
      obtain ⟨hes, _⟩ := beadWF_node hwf
      subst hes
      cases hmem

/-- Single-epic half of the ancestor-preservation argument. -/
theorem filterEpic_preserves (filters : Filters) :
    ∀ {b x : Bead} {anc : List String}, Occurs b anc x → epicWF b = true →
    matchesBead x filters = true → x.id ≠ "_standalone" →
    ∃ x' b', filterEpic b filters = some b' ∧ Occurs b' anc x' ∧ x'.attrs = x.attrs := by
  intro b x anc hocc
  induction hocc with
  | here b =>
    intro _ hmatch hnid
    cases b with
    | node a cs es =>
      have hid : a.id ≠ "_standalone" := by
        simpa [Bead.id, Bead.attrs] using hnid
      refine ⟨.node a (filterBeadList cs filters) (filterEpicList es filters),
        .node a (filterBeadList cs filters) (filterEpicList es filters),
        ?_, Occurs.here _, rfl⟩
      simp [filterEpic, hid, hmatch]
  | viaChild hmem hsub ih =>
    intro hwf hmatch hnid
    rename_i b c anc2 x
    cases b with
    | node a cs es =>
      obtain ⟨_, hcs, _⟩ := epicWF_node hwf
      have hcwf : beadWF c = true := beadWFList_mem hcs c hmem
      obtain ⟨x', c', hfc, hocc', hattr⟩ := filterBead_preserves filters hsub hcwf hmatch
      have hc' : c' ∈ filterBeadList cs filters := filterBeadList_mem_of hmem hfc
      have hne : filterBeadList cs filters ≠ [] := List.ne_nil_of_mem hc'
      by_cases hsa : a.id = "_standalone"
      · refine ⟨x', .node a (filterBeadList cs filters) [], ?_, ?_, hattr⟩
        · simp [filterEpic, hsa, hne]
        · exact Occurs.viaChild (b := .node a (filterBeadList cs filters) []) hc' hocc'
      · refine ⟨x', .node a (filterBeadList cs filters) (filterEpicList es filters), ?_, ?_, hattr⟩
        · simp [filterEpic, hsa, hne]
        · exact Occurs.viaChild
            (b := .node a (filterBeadList cs filters) (filterEpicList es filters)) hc' hocc'
  | viaChildEpic hmem hsub ih =>
    intro hwf hmatch hnid
    rename_i b e anc2 x
    cases b with
    | node a cs es =>
      obtain ⟨hsa, _, hes⟩ := epicWF_node hwf
      have hewf : epicWF e = true := epicWFList_mem hes e hmem
      obtain ⟨x', e', hfe, hocc', hattr⟩ := ih hewf hmatch hnid
      have he' : e' ∈ filterEpicList es filters := filterEpicList_mem_of hmem hfe
      have hne : filterEpicList es filters ≠ [] := List.ne_nil_of_mem he'
      by_cases hsa' : a.id = "_standalone"
      · have : es = [] := hsa hsa'
        subst this
        cases hmem
      · refine ⟨x', .node a (filterBeadList cs filters) (filterEpicList es filters), ?_, ?_, hattr⟩
        · simp [filterEpic, hsa', hne]
        · exact Occurs.viaChildEpic
            (b := .node a (filterBeadList cs filters) (filterEpicList es filters)) he' hocc'

theorem filterBead_isSome_iff (filters : Filters) (a : Attrs) (cs es : List Bead) :
    (filterBead (.node a cs es) filters).isSome = true ↔
      (matchesBead (.node a cs es) filters = true ∨ filterBeadList cs filters ≠ []) := by
  simp only [filterBead]
  by_cases hm : matchesBead (.node a cs es) filters = true
  · simp [hm]
  · by_cases hl : filterBeadList cs filters = []
    · simp [hm, hl]
    · simp [hm, hl, List.length_pos]

theorem exists_isSome_iff_ne_nil (filters : Filters) (cs : List Bead) :
    filterBeadList cs filters ≠ [] ↔ ∃ c ∈ cs, (filterBead c filters).isSome = true := by
  rw [Ne, filterBeadList_eq_nil_iff]
  push_neg
  constructor
  · rintro ⟨c, hc, hnone⟩
    exact ⟨c, hc, Option.isSome_iff_ne_none.mpr hnone⟩
  · rintro ⟨c, hc, hsome⟩
    exact ⟨c, hc, Option.isSome_iff_ne_none.mp hsome⟩

/-- C1: recursive retention rule and ancestor preservation of the filter
engine.  (1) `filterBead` keeps a bead iff it matches or some recursively
filtered child survives, replacing `children` by the filtered subset and
leaving the attributes and `childEpics` unchanged.  (2) The `_standalone`
pseudo-epic is dropped exactly when no child survives, and when kept it has
surviving children and cleared `childEpics`.  (3) Every issue matching the
predicate (other than the `_standalone` node itself) survives `filterEpics`
together with its entire ancestor-id chain, for any well-formed forest
(nodes in `children` positions carry no `childEpics`, and `_standalone`
nodes have no child epics, as the hierarchy builder guarantees). -/
theorem filterEpics_retention_and_ancestors (filters : Filters) :
    (∀ b : Bead,
        ((filterBead b filters).isSome = true ↔
          (matchesBead b filters = true ∨ ∃ c ∈ b.children, (filterBead c filters).isSome = true)) ∧
        (∀ b', filterBead b filters = some b' →
          b'.attrs = b.attrs ∧ b'.children = filterBeadList b.children filters ∧
            b'.childEpics = b.childEpics)) ∧
    (∀ (a : Attrs) (cs es : List Bead), a.id = "_standalone" →
        ((filterEpic (.node a cs es) filters = none ↔ filterBeadList cs filters = []) ∧
        (∀ e', filterEpic (.node a cs es) filters = some e' →
          e'.children ≠ [] ∧ e'.childEpics = []))) ∧
    (∀ (forest : List Bead) (anc : List String) (x : Bead),
        (∀ r ∈ forest, epicWF r = true) →
        (∃ r ∈ forest, Occurs r anc x) →
        matchesBead x filters = true → x.id ≠ "_standalone" →
        ∃ x' r', r' ∈ filterEpics forest filters ∧ Occurs r' anc x' ∧ x'.attrs = x.attrs) := by
  refine ⟨?_, ?_, ?_⟩
  · intro b
    cases b with
    | node a cs es =>
      constructor
      · rw [filterBead_isSome_iff, exists_isSome_iff_ne_nil]
        simp [Bead.children]
      · intro b' hb'
        simp only [filterBead] at hb'
        by_cases hcond : (matchesBead (.node a cs es) filters ||
            decide (0 < (filterBeadList cs filters).length)) = true
        · rw [if_pos] at hb'
          · cases hb'
            simp [Bead.attrs, Bead.children, Bead.childEpics]
          · simpa using hcond
        · rw [if_neg] at hb'
          · cases hb'
          · simpa using hcond
  · intro a cs es hsa
    constructor
    · simp only [filterEpic, hsa]
      by_cases hl : filterBeadList cs filters = []
      · simp [hl]
      · simp [hl]
    · intro e' he'
      simp only [filterEpic, hsa] at he'
      by_cases hl : filterBeadList cs filters = []
      · simp [hl] at he'
      · simp [hl] at he'
        cases he'
        simp [Bead.children, Bead.childEpics, hl]
  · intro forest anc x hwf ⟨r, hr, hocc⟩ hmatch hnid
    by_cases hdef : filters.status = "all" ∧ filters.priority = "all" ∧
        filters.assignee = "all" ∧ filters.search = "" ∧ filters.showMessages = true
    · refine ⟨x, r, ?_, hocc, rfl⟩
      simp [filterEpics, hdef.1, hdef.2.1, hdef.2.2.1, hdef.2.2.2.1, hdef.2.2.2.2]
      exact hr
    · obtain ⟨x', r', hfr, hocc', hattr⟩ :=
        filterEpic_preserves filters hocc (hwf r hr) hmatch hnid
      refine ⟨x', r', ?_, hocc', hattr⟩
      have hmem : r' ∈ filterEpicList forest filters := filterEpicList_mem_of hr hfr
      simp only [filterEpics]
      by_cases hc : (filters.status = "all" && filters.priority = "all" &&
          filters.assignee = "all" && filters.search = "" && filters.showMessages) = true
      · exfalso
        apply hdef
        simp [Bool.and_eq_true] at hc
        tauto
      · rw [if_neg]
        · exact hmem
        · simpa using hc

/-- Attribute record builder used by concrete test inputs. -/
def mkAttrs (id ty status : String) : Attrs :=
  { id := id, type := ty, title := id, description := "", acceptanceCriteria := none,
    status := status, priority := "medium", assignee := "", labels := [],
    parentId := none, createdAt := none, updatedAt := none }

/-- C1 witness: a closed bead `b1` matching `status = open` survives the
filter under its non-matching parent epic `e1`, ancestor chain intact. -/
theorem filterEpics_retention_and_ancestors_witness :
    ∃ x' r', r' ∈ filterEpics
        [Bead.node (mkAttrs "e1" "epic" "closed")
          [Bead.node (mkAttrs "b1" "task" "open") [] []] []]
        ⟨"open", "all", "all", "", true⟩ ∧
      Occurs r' ["e1"] x' ∧ x'.attrs = mkAttrs "b1" "task" "open" :=
  (filterEpics_retention_and_ancestors ⟨"open", "all", "all", "", true⟩).2.2
    [Bead.node (mkAttrs "e1" "epic" "closed")
      [Bead.node (mkAttrs "b1" "task" "open") [] []] []]
    ["e1"] (Bead.node (mkAttrs "b1" "task" "open") [] [])
    (by decide)
    ⟨Bead.node (mkAttrs "e1" "epic" "closed")
        [Bead.node (mkAttrs "b1" "task" "open") [] []] [],
      List.mem_singleton.mpr rfl,
      Occurs.viaChild (c := Bead.node (mkAttrs "b1" "task" "open") [] [])
        (by simp [Bead.children]) (Occurs.here _)⟩
    (by decide) (by decide)

/-! ### Partition classifier (main page: `activeEpics`, `backlogEpics`,
`archivedEpics`, `isBacklogged`) -/

/-- `isBacklogged` from the epic viewer page: `b.labels?.includes("backlog")`. -/
def isBacklogged (b : Bead) : Bool := b.labels.contains "backlog"

/-- `activeEpics`: top-level items with neither reserved label. -/
def activeEpics (sortedEpics : List Bead) : List Bead :=
  sortedEpics.filter (fun e => !(e.labels.contains "archived") && !(isBacklogged e))

/-- `backlogEpics`: backlogged top-level items that are not archived. -/
def backlogEpics (sortedEpics : List Bead) : List Bead :=
  sortedEpics.filter (fun e => isBacklogged e && !(e.labels.contains "archived"))

/-- `archivedEpics`: top-level items labelled `"archived"`. -/
def archivedEpics (sortedEpics : List Bead) : List Bead :=
  sortedEpics.filter (fun e => e.labels.contains "archived")

/-- C5: the active/backlog/archived partition places every top-level item
in exactly one of the three sets — archived when labelled `"archived"`,
otherwise backlog when labelled `"backlog"`, otherwise active — and an
item carrying both reserved labels lands only in archived. -/
theorem partition_exclusive (l : List Bead) (e : Bead) (he : e ∈ l) :
    (e ∈ archivedEpics l ↔ e.labels.contains "archived" = true) ∧
    (e ∈ backlogEpics l ↔
      (e.labels.contains "backlog" = true ∧ e.labels.contains "archived" = false)) ∧
    (e ∈ activeEpics l ↔
      (e.labels.contains "archived" = false ∧ e.labels.contains "backlog" = false)) ∧
    ((e ∈ activeEpics l ∧ e ∉ backlogEpics l ∧ e ∉ archivedEpics l) ∨
      (e ∉ activeEpics l ∧ e ∈ backlogEpics l ∧ e ∉ archivedEpics l) ∨
      (e ∉ activeEpics l ∧ e ∉ backlogEpics l ∧ e ∈ archivedEpics l)) ∧
    (e.labels.contains "archived" = true → e.labels.contains "backlog" = true →
      e ∈ archivedEpics l ∧ e ∉ activeEpics l ∧ e ∉ backlogEpics l) := by
  have harch : e ∈ archivedEpics l ↔ e.labels.contains "archived" = true := by
    simp [archivedEpics, List.mem_filter, he]
  have hback : e ∈ backlogEpics l ↔
      (e.labels.contains "backlog" = true ∧ e.labels.contains "archived" = false) := by
    simp [backlogEpics, List.mem_filter, he, isBacklogged]
  have hact : e ∈ activeEpics l ↔
      (e.labels.contains "archived" = false ∧ e.labels.contains "backlog" = false) := by
    simp [activeEpics, List.mem_filter, he, isBacklogged]
  refine ⟨harch, hback, hact, ?_, ?_⟩
  · rw [harch, hback, hact]
    cases ha : e.labels.contains "archived" <;> cases hb : e.labels.contains "backlog" <;> simp
  · intro h1 h2
    refine ⟨harch.mpr h1, ?_, ?_⟩
    · rw [hact]
      rintro ⟨hc, _⟩
      rw [h1] at hc
      cases hc
    · rw [hback]
      rintro ⟨_, hc⟩
      rw [h1] at hc
      cases hc

/-- C5 witness: an item labelled both `archived` and `backlog` lands only
in the archived set. -/
theorem partition_exclusive_witness :
    Bead.node { mkAttrs "x" "epic" "open" with labels := ["archived", "backlog"] } [] [] ∈
      archivedEpics [Bead.node { mkAttrs "x" "epic" "open" with labels := ["archived", "backlog"] } [] []] ∧
    Bead.node { mkAttrs "x" "epic" "open" with labels := ["archived", "backlog"] } [] [] ∉
      activeEpics [Bead.node { mkAttrs "x" "epic" "open" with labels := ["archived", "backlog"] } [] []] ∧
    Bead.node { mkAttrs "x" "epic" "open" with labels := ["archived", "backlog"] } [] [] ∉
      backlogEpics [Bead.node { mkAttrs "x" "epic" "open" with labels := ["archived", "backlog"] } [] []] :=
  (partition_exclusive
    [Bead.node { mkAttrs "x" "epic" "open" with labels := ["archived", "backlog"] } [] []]
    (Bead.node { mkAttrs "x" "epic" "open" with labels := ["archived", "backlog"] } [] [])
    (List.mem_singleton.mpr rfl)).2.2.2.2 (by decide) (by decide)

/-! ### Move validation (main page: `isDescendantOf`, `canMoveEpic`;
`epic-tree.tsx` drag-and-drop variant: the epic drop handler) -/

mutual

/-- Inner `checkEpic` of `isDescendantOf`: does the subtree reached by
walking `childEpics` from this node contain a node with id `childId`? -/
def checkEpic (childId : String) : Bead → Bool
  | .node a _ es => a.id == childId || checkEpicList childId es

def checkEpicList (childId : String) : List Bead → Bool
  | [] => false
  | e :: rest => checkEpic childId e || checkEpicList childId rest

end

mutual

/-- Inner `findAndCheck` of `isDescendantOf`: locate the first node with
id `parentId` (scanning each list element and then its `childEpics`) and
return `checkEpic` of it; keep scanning siblings when a recursive search
comes back false. -/
def findAndCheck (parentId childId : String) : List Bead → Bool
  | [] => false
  | .node a cs es :: rest =>
    if a.id == parentId then checkEpic childId (.node a cs es)
    else if findAndCheck parentId childId es then true
    else findAndCheck parentId childId rest

end

/-- `isDescendantOf(parentId, childId, epics)` from the epic viewer page. -/
def isDescendantOf (parentId childId : String) (epics : List Bead) : Bool :=
  findAndCheck parentId childId epics

/-- `canMoveEpic` from the epic viewer page: refuse self-drops, always
accept `_standalone`, otherwise refuse descendants of the dropped epic. -/
def canMoveEpic (epicId targetEpicId : String) (epics : List Bead) : Bool :=
  if epicId == targetEpicId then false
  else if targetEpicId == "_standalone" then true
  else !(isDescendantOf epicId targetEpicId epics)

mutual

/-- All nodes reachable from an epic by walking `childEpics` (the node
itself included). -/
def epicNodes : Bead → List Bead
  | .node a cs es => .node a cs es :: epicNodesList es

def epicNodesList : List Bead → List Bead
  | [] => []
  | e :: rest => epicNodes e ++ epicNodesList rest

end

/-- The drag payload written by `handleDragStart`/read by the drop handler
(`JSON.parse` of the `text/plain` data): `none` models a malformed
payload whose parse throws. -/
structure DragPayload where
  beadId : String
  sourceEpicId : String
  kind : String
deriving DecidableEq, Repr

/-- The `onDrop` handler of `EpicRow` (drag-and-drop `epic-tree` variant):
returns the `(beadId, targetEpicId)` pair passed to `onBeadMove`, or
`none` when the drop is ignored (malformed payload, drop on the source
epic, self-drop of an epic, or `canMoveEpic` veto). -/
def epicRowDrop (payload : Option DragPayload) (epicId : String)
    (canMove : String → String → Bool) : Option (String × String) :=
  match payload with
  | none => none
  | some data =>
    if data.sourceEpicId ≠ epicId then
      if data.kind = "epic" then
        if data.beadId = epicId then none
        else if !(canMove data.beadId epicId) then none
        else some (data.beadId, epicId)
      else some (data.beadId, epicId)
    else none

theorem mem_epicNodesList_iff {m : Bead} :
    ∀ {es : List Bead}, m ∈ epicNodesList es ↔ ∃ e ∈ es, m ∈ epicNodes e := by
  intro es
  induction es with
  | nil => simp [epicNodesList]
  | cons e rest ih =>
    simp only [epicNodesList, List.mem_append, ih]
    constructor
    · rintro (h | ⟨e', he', hm⟩)
      · exact ⟨e, List.mem_cons_self _ _, h⟩
      · exact ⟨e', List.mem_cons_of_mem _ he', hm⟩
    · rintro ⟨e', he', hm⟩
      rcases List.mem_cons.mp he' with he' | he'
      · subst he'; exact Or.inl hm
      · exact Or.inr ⟨e', he', hm⟩

theorem checkEpicList_true_iff {t : String} :
    ∀ {es : List Bead}, checkEpicList t es = true ↔ ∃ e ∈ es, checkEpic t e = true := by
  intro es
  induction es with
  | nil => simp [checkEpicList]
  | cons e rest ih =>
    simp only [checkEpicList, Bool.or_eq_true, ih]
    constructor
    · rintro (h | ⟨e', he', hm⟩)
      · exact ⟨e, List.mem_cons_self _ _, h⟩
      · exact ⟨e', List.mem_cons_of_mem _ he', hm⟩
    · rintro ⟨e', he', hm⟩
      rcases List.mem_cons.mp he' with he' | he'
      · subst he'; exact Or.inl hm
      · exact Or.inr ⟨e', he', hm⟩

theorem checkEpic_true_of_mem {target : String} :
    ∀ {n : Bead} {m : Bead}, m ∈ epicNodes n → m.id = target → checkEpic target n = true := by
  intro n
  induction n using Bead.inductionOn with
  | step a cs es _ ihe =>
    intro m hm hid
    simp only [epicNodes] at hm
    rcases List.mem_cons.mp hm with hm | hm
    · subst hm
      simp only [Bead.id, Bead.attrs] at hid
      simp [checkEpic, hid]
    · obtain ⟨e, he, hm'⟩ := mem_epicNodesList_iff.mp hm
      have : checkEpic target e = true := ihe e he hm' hid
      have hany : checkEpicList target es = true := checkEpicList_true_iff.mpr ⟨e, he, this⟩
      simp [checkEpic, hany]

theorem checkEpic_mem_of_true {target : String} :
    ∀ {n : Bead}, checkEpic target n = true → ∃ m ∈ epicNodes n, m.id = target := by
  intro n
  induction n using Bead.inductionOn with
  | step a cs es _ ihe =>
    intro h
    simp only [checkEpic, Bool.or_eq_true] at h
    rcases h with h | h
    · exact ⟨.node a cs es, by simp [epicNodes], by simpa [Bead.id, Bead.attrs] using h⟩
    · obtain ⟨e, he, hh⟩ := checkEpicList_true_iff.mp h
      obtain ⟨m, hm, hid⟩ := ihe e he hh
      exact ⟨m, by
        simp only [epicNodes]
        exact List.mem_cons_of_mem _ (mem_epicNodesList_iff.mpr ⟨e, he, hm⟩), hid⟩

theorem epicNodesList_cons (x : Bead) (rest : List Bead) :
    epicNodesList (x :: rest) = epicNodes x ++ epicNodesList rest := by
  simp [epicNodesList]

theorem findAndCheck_true (dropped target : String) :
    ∀ l : List Bead, (∃ n ∈ epicNodesList l, n.id = dropped) →
      (∀ n ∈ epicNodesList l, n.id = dropped → checkEpic target n = true) →
      findAndCheck dropped target l = true := by
  have key : ∀ N l, Bead.szList l ≤ N → (∃ n ∈ epicNodesList l, n.id = dropped) →
      (∀ n ∈ epicNodesList l, n.id = dropped → checkEpic target n = true) →
      findAndCheck dropped target l = true := by
    intro N
    induction N with
    | zero =>
      intro l hsz h1 _
      cases l with
      | nil => obtain ⟨n, hn, _⟩ := h1; simp [epicNodesList] at hn
      | cons x rest =>
        have := Bead.sz_pos x
        simp [Bead.szList] at hsz
        omega
    | succ N ih =>
      intro l hsz h1 h2
      cases l with
      | nil => obtain ⟨n, hn, _⟩ := h1; simp [epicNodesList] at hn
      | cons x rest =>
        cases x with
        | node a cs es =>
          have hszx : Bead.sz (.node a cs es) = 1 + Bead.szList cs + Bead.szList es := by
            simp [Bead.sz]
          have hszl : Bead.szList (Bead.node a cs es :: rest) =
              Bead.sz (.node a cs es) + Bead.szList rest := by
            simp [Bead.szList]
          by_cases hid : a.id == dropped
          · have hmem : (Bead.node a cs es) ∈ epicNodesList (Bead.node a cs es :: rest) := by
              rw [epicNodesList_cons]
              exact List.mem_append_left _ (by simp [epicNodes])
            have := h2 _ hmem (by simpa [Bead.id, Bead.attrs] using hid)
            simp [findAndCheck, hid, this]
          · obtain ⟨n, hn, hnid⟩ := h1
            rw [epicNodesList_cons] at hn
            have h2es : ∀ n ∈ epicNodesList es, n.id = dropped → checkEpic target n = true := by
              intro m hm hmid
              refine h2 m ?_ hmid
              rw [epicNodesList_cons]
              exact List.mem_append_left _ (by simp [epicNodes, hm])
            have h2rest : ∀ n ∈ epicNodesList rest, n.id = dropped → checkEpic target n = true := by
              intro m hm hmid
              refine h2 m ?_ hmid
              rw [epicNodesList_cons]
              exact List.mem_append_right _ hm
            by_cases hes : findAndCheck dropped target es = true
            · simp [findAndCheck, hid, hes]
            · rcases List.mem_append.mp hn with hn | hn
              · simp only [epicNodes] at hn
                rcases List.mem_cons.mp hn with hn | hn
                · exfalso
                  apply hid
                  subst hn
                  simpa [Bead.id, Bead.attrs] using hnid
                · exfalso
                  apply hes
                  exact ih es (by omega) ⟨n, hn, hnid⟩ h2es
              · have : findAndCheck dropped target rest = true := by
                  have := Bead.sz_pos (.node a cs es)
                  exact ih rest (by omega) ⟨n, hn, hnid⟩ h2rest
                simp [findAndCheck, hid, hes, this]
  intro l
  exact key (Bead.szList l) l (Nat.le_refl _)

theorem findAndCheck_target_mem (dropped target : String) :
    ∀ l : List Bead, findAndCheck dropped target l = true →
      ∃ m ∈ epicNodesList l, m.id = target := by
  have key : ∀ N l, Bead.szList l ≤ N → findAndCheck dropped target l = true →
      ∃ m ∈ epicNodesList l, m.id = target := by
    intro N
    induction N with
    | zero =>
      intro l hsz h
      cases l with
      | nil => simp [findAndCheck] at h
      | cons x rest =>
        have := Bead.sz_pos x
        simp [Bead.szList] at hsz
        omega
    | succ N ih =>
      intro l hsz h
      cases l with
      | nil => simp [findAndCheck] at h
      | cons x rest =>
        cases x with
        | node a cs es =>
          have hszx : Bead.sz (.node a cs es) = 1 + Bead.szList cs + Bead.szList es := by
            simp [Bead.sz]
          have hszl : Bead.szList (Bead.node a cs es :: rest) =
              Bead.sz (.node a cs es) + Bead.szList rest := by
            simp [Bead.szList]
          by_cases hid : a.id == dropped
          · rw [findAndCheck, if_pos hid] at h
            obtain ⟨m, hm, hmid⟩ := checkEpic_mem_of_true h
            refine ⟨m, ?_, hmid⟩
            rw [epicNodesList_cons]
            exact List.mem_append_left _ hm
          · rw [findAndCheck, if_neg hid] at h
            by_cases hes : findAndCheck dropped target es = true
            · obtain ⟨m, hm, hmid⟩ := ih es (by omega) hes
              refine ⟨m, ?_, hmid⟩
              rw [epicNodesList_cons]
              exact List.mem_append_left _ (by simp [epicNodes, hm])
            · rw [if_neg (by simpa using hes)] at h
              have := Bead.sz_pos (.node a cs es)
              obtain ⟨m, hm, hmid⟩ := ih rest (by omega) h
              refine ⟨m, ?_, hmid⟩
              rw [epicNodesList_cons]
              exact List.mem_append_right _ hm
  intro l
  exact key (Bead.szList l) l (Nat.le_refl _)

/-- C6: move validation.  `canMoveEpic` refuses a drop on the epic
itself; refuses any target (other than the reserved `_standalone`) that
lies in the `childEpics`-walk of every node carrying the dropped id;
always accepts `_standalone`; accepts `_toplevel` whenever no real node
carries that reserved id; and a veto by `canMoveEpic` makes the epic drop
handler ignore the drop, so no move call reaches the tracker. -/
theorem canMoveEpic_spec (epics : List Bead) (dropped target : String) :
    canMoveEpic dropped dropped epics = false ∧
    (target ≠ "_standalone" →
      (∃ n ∈ epicNodesList epics, n.id = dropped) →
      (∀ n ∈ epicNodesList epics, n.id = dropped → checkEpic target n = true) →
      canMoveEpic dropped target epics = false) ∧
    (dropped ≠ "_standalone" → canMoveEpic dropped "_standalone" epics = true) ∧
    (dropped ≠ "_toplevel" → (∀ n ∈ epicNodesList epics, n.id ≠ "_toplevel") →
      canMoveEpic dropped "_toplevel" epics = true) ∧
    (∀ (payload : DragPayload) (targetId : String) (canMv : String → String → Bool),
      payload.kind = "epic" → canMv payload.beadId targetId = false →
      epicRowDrop (some payload) targetId canMv = none) := by
  refine ⟨?_, ?_, ?_, ?_, ?_⟩
  · simp [canMoveEpic]
  · intro hts h1 h2
    by_cases heq : dropped == target
    · simp [canMoveEpic, heq]
    · have hdesc : isDescendantOf dropped target epics = true :=
        findAndCheck_true dropped target epics h1 h2
      simp [canMoveEpic, heq, hts, hdesc]
  · intro hds
    have : (dropped == "_standalone") = false := by
      simpa using hds
    simp [canMoveEpic, this]
  · intro hdt hno
    have h1 : (dropped == "_toplevel") = false := by
      simpa using hdt
    have h2 : isDescendantOf dropped "_toplevel" epics = false := by
      cases hv : isDescendantOf dropped "_toplevel" epics
      · rfl
      · obtain ⟨m, hm, hmid⟩ := findAndCheck_target_mem dropped "_toplevel" epics hv
        exact absurd hmid (hno m hm)
    simp [canMoveEpic, h1, h2]
  · intro payload targetId canMv hkind hveto
    simp only [epicRowDrop]
    by_cases hsrc : payload.sourceEpicId ≠ targetId
    · rw [if_pos hsrc, if_pos hkind]
      by_cases hself : payload.beadId = targetId
      · rw [if_pos hself]
      · rw [if_neg hself, if_pos (by simp [hveto])]
    · rw [if_neg hsrc]

/-- C6 witness: with epic `b` nested under epic `a`, dropping `a` onto
`b` is vetoed and the drop handler issues no move call. -/
theorem canMoveEpic_spec_witness :
    canMoveEpic "a" "b"
      [Bead.node (mkAttrs "a" "epic" "open") [] [Bead.node (mkAttrs "b" "epic" "open") [] []]]
      = false ∧
    epicRowDrop (some ⟨"a", "src", "epic"⟩) "b"
      (fun x y => canMoveEpic x y
        [Bead.node (mkAttrs "a" "epic" "open") [] [Bead.node (mkAttrs "b" "epic" "open") [] []]])
      = none := by
  have hveto := (canMoveEpic_spec
    [Bead.node (mkAttrs "a" "epic" "open") [] [Bead.node (mkAttrs "b" "epic" "open") [] []]]
    "a" "b").2.1 (by decide) (by decide) (by decide)
  refine ⟨hveto, ?_⟩
  exact (canMoveEpic_spec
    [Bead.node (mkAttrs "a" "epic" "open") [] [Bead.node (mkAttrs "b" "epic" "open") [] []]]
    "a" "b").2.2.2.2 ⟨"a", "src", "epic"⟩ "b" _ rfl hveto

/-! ### Mutation protocol (main page: `updateBeadInEpics`,
`handleStatusChange`; `bead-detail-panel.tsx`: per-field save state
machine) -/

mutual

/-- Inner `updateBead` of `updateBeadInEpics` (epic viewer page):
recursively replace the bead with the given id, descending through
`children` only. -/
def updateBead (beadId : String) (updateFn : Bead → Bead) : Bead → Bead
  | .node a cs es =>
    if a.id = beadId then updateFn (.node a cs es)
    else .node a (updateBeadList beadId updateFn cs) es

def updateBeadList (beadId : String) (updateFn : Bead → Bead) : List Bead → List Bead
  | [] => []
  | b :: bs => updateBead beadId updateFn b :: updateBeadList beadId updateFn bs

end

mutual

/-- Inner `updateEpic` of `updateBeadInEpics`: recursively replace in
`children` (via `updateBead`) and in `childEpics`. -/
def updateEpic (beadId : String) (updateFn : Bead → Bead) : Bead → Bead
  | .node a cs es =>
    if a.id = beadId then updateFn (.node a cs es)
    else .node a (updateBeadList beadId updateFn cs) (updateEpicList beadId updateFn es)

def updateEpicList (beadId : String) (updateFn : Bead → Bead) : List Bead → List Bead
  | [] => []
  | e :: es => updateEpic beadId updateFn e :: updateEpicList beadId updateFn es

end

/-- `updateBeadInEpics` from the epic viewer page. -/
def updateBeadInEpics (epics : List Bead) (beadId : String) (updateFn : Bead → Bead) :
    List Bead :=
  updateEpicList beadId updateFn epics

/-- The optimistic patch `(bead) => ({ ...bead, status })`. -/
def setStatusFn (status : String) : Bead → Bead
  | .node a cs es => .node { a with status := status } cs es

/-- Outcome of the page-level `handleStatusChange`: the in-memory forest
after the synchronous failure handling, whether an authoritative reload
was triggered, and the delay of a scheduled error-indicator clear (the
page handler schedules none — it only logs and reloads). -/
structure PageOutcome where
  epics : List Bead
  reloadTriggered : Bool
  errorClearDelayMs : Option Nat
deriving DecidableEq

/-- `handleStatusChange` of the epic viewer page: apply the optimistic
patch, issue the tracker call, and — success or failure — trigger
`loadEpics()`; the failure branch only logs, it neither reverts the
optimistic patch nor sets a timed error indicator.  `succeeds` is the
tracker call's result (unused by the state transition, as in the
source). -/
def pageHandleStatusChange (epics : List Bead) (beadId status : String)
    (succeeds : Bool) : PageOutcome :=
  ⟨updateBeadInEpics epics beadId (setStatusFn status), true, none⟩

/-- Per-field indicator state of the detail panel (`FieldState`). -/
structure FieldState where
  isSaving : Bool
  hasError : Bool
deriving DecidableEq, Repr

/-- `clearFieldError` of the detail panel. -/
def clearFieldError (fs : FieldState) : FieldState := { fs with hasError := false }

/-- Local state of the status field in the detail panel. -/
structure PanelState where
  status : String
  fieldState : FieldState
deriving DecidableEq, Repr

/-- Outcome of the panel's `handleStatusChange`: resulting local state,
the tracker calls issued (id, new status), and the scheduled
error-indicator clear delay, if any. -/
structure PanelOutcome where
  state : PanelState
  calls : List (String × String)
  errorClearDelayMs : Option Nat
deriving DecidableEq, Repr

/-- `handleStatusChange` of `bead-detail-panel.tsx`: bail out when no
bead is selected or the value is unchanged; otherwise mark
saving, set the new value, call the tracker once, and on failure revert
to the previous value, set the error flag and schedule
`clearFieldError` after 2000 ms. -/
def panelHandleStatusChange (bead : Option Attrs) (st : PanelState)
    (newStatus : String) (succeeds : Bool) : PanelOutcome :=
  match bead with
  | none => ⟨st, [], none⟩
  | some b =>
    if newStatus = st.status then ⟨st, [], none⟩
    else
      let prevStatus := st.status
      if succeeds then
        ⟨⟨newStatus, ⟨false, false⟩⟩, [(b.id, newStatus)], none⟩
      else
        ⟨⟨prevStatus, ⟨false, true⟩⟩, [(b.id, newStatus)], some 2000⟩

/-- C9 counterexample: the list-view status mutation does not revert on
failure and sets no 2-second error indicator.  With one epic containing
bead `b1` (status `open`), a failing change to `closed` leaves the forest
optimistically patched (not deep-equal to the pre-mutation forest) and
schedules no error clear — the handler only triggers a reload. -/
theorem pageStatusChange_no_rollback :
    (pageHandleStatusChange
        [Bead.node (mkAttrs "e1" "epic" "open")
          [Bead.node (mkAttrs "b1" "task" "open") [] []] []]
        "b1" "closed" false).epics ≠
      [Bead.node (mkAttrs "e1" "epic" "open")
        [Bead.node (mkAttrs "b1" "task" "open") [] []] []] ∧
    (pageHandleStatusChange
        [Bead.node (mkAttrs "e1" "epic" "open")
          [Bead.node (mkAttrs "b1" "task" "open") [] []] []]
        "b1" "closed" false).errorClearDelayMs = none := by
  constructor
  · decide
  · rfl

/-- C9 (amended): a failing field save in the bead detail panel reverts
the field to its pre-mutation value, sets the error flag and schedules its
clear after exactly 2000 ms, issuing exactly one tracker call (no retry);
the list-view handler instead always triggers an authoritative reload,
success or failure alike. -/
theorem panelStatusChange_rollback (b : Attrs) (st : PanelState) (newStatus : String)
    (hne : newStatus ≠ st.status) :
    (panelHandleStatusChange (some b) st newStatus false).state.status = st.status ∧
    (panelHandleStatusChange (some b) st newStatus false).state.fieldState =
      ⟨false, true⟩ ∧
    (panelHandleStatusChange (some b) st newStatus false).errorClearDelayMs = some 2000 ∧
    (panelHandleStatusChange (some b) st newStatus false).calls = [(b.id, newStatus)] ∧
    clearFieldError (panelHandleStatusChange (some b) st newStatus false).state.fieldState =
      ⟨false, false⟩ ∧
    (∀ (epics : List Bead) (beadId status : String) (succeeds : Bool),
      (pageHandleStatusChange epics beadId status succeeds).reloadTriggered = true) := by
  refine ⟨?_, ?_, ?_, ?_, ?_, fun _ _ _ _ => rfl⟩ <;>
    simp [panelHandleStatusChange, hne, clearFieldError]

/-- C9 witness: the amended rollback at a concrete bead and state. -/
theorem panelStatusChange_rollback_witness :
    (panelHandleStatusChange (some (mkAttrs "b1" "task" "open"))
        ⟨"open", ⟨false, false⟩⟩ "closed" false).state.status = "open" ∧
    (panelHandleStatusChange (some (mkAttrs "b1" "task" "open"))
        ⟨"open", ⟨false, false⟩⟩ "closed" false).state.fieldState = ⟨false, true⟩ ∧
    (panelHandleStatusChange (some (mkAttrs "b1" "task" "open"))
        ⟨"open", ⟨false, false⟩⟩ "closed" false).errorClearDelayMs = some 2000 ∧
    (panelHandleStatusChange (some (mkAttrs "b1" "task" "open"))
        ⟨"open", ⟨false, false⟩⟩ "closed" false).calls = [("b1", "closed")] := by
  have h := panelStatusChange_rollback (mkAttrs "b1" "task" "open")
    ⟨"open", ⟨false, false⟩⟩ "closed" (by decide)
  exact ⟨h.1, h.2.1, h.2.2.1, h.2.2.2.1⟩

/-! ### Navigation projector (main page: `navigableItems` /
`itemIndexMap`) -/

/-- One entry of the navigable-items projection
(`{id, type: "epic"|"bead", bead}`). -/
structure NavItem where
  id : String
  type : String
  bead : Bead
deriving DecidableEq

/-- JS `Map.get` over an entry list where a later `set` for the same key
overwrites an earlier one (last binding wins). -/
def mapGet {α : Type} (entries : List (String × α)) (k : String) : Option α :=
  (entries.reverse.find? (fun e => e.1 == k)).map (fun e => e.2)

/-- The `items` array and `indexMap` being accumulated. -/
structure NavState where
  items : List NavItem
  indexMap : List (String × Nat)
deriving DecidableEq

mutual

/-- Inner `addBead` of the projection: record the index, push the item,
and if the bead is expanded recurse into its subtasks. -/
def addBead (expandedBeads : List String) : NavState → Bead → NavState
  | st, .node a cs es =>
    let st1 : NavState :=
      ⟨st.items ++ [⟨a.id, "bead", .node a cs es⟩],
        st.indexMap ++ [(a.id, st.items.length)]⟩
    if expandedBeads.contains a.id then addBeadList expandedBeads st1 cs else st1

def addBeadList (expandedBeads : List String) : NavState → List Bead → NavState
  | st, [] => st
  | st, b :: bs => addBeadList expandedBeads (addBead expandedBeads st b) bs

end

mutual

/-- Inner `addEpic` of the projection: record the index, push the item,
and if the epic is expanded recurse into `childEpics` then `children`. -/
def addEpic (eE eB : List String) : NavState → Bead → NavState
  | st, .node a cs es =>
    let st1 : NavState :=
      ⟨st.items ++ [⟨a.id, "epic", .node a cs es⟩],
        st.indexMap ++ [(a.id, st.items.length)]⟩
    if eE.contains a.id then addBeadList eB (addEpicList eE eB st1 es) cs else st1

def addEpicList (eE eB : List String) : NavState → List Bead → NavState
  | st, [] => st
  | st, e :: es => addEpicList eE eB (addEpic eE eB st e) es

end

/-- `navigableItems`/`itemIndexMap` from the epic viewer page: project
the four partitions in order — active epics (with filtered
`_standalone`), backlog loose beads, backlog epics, archived epics. -/
def navigableItems (active backlogBeadsL backlogEpicsL archivedL : List Bead)
    (eE eB : List String) : NavState :=
  addEpicList eE eB
    (addEpicList eE eB
      (addBeadList eB (addEpicList eE eB ⟨[], []⟩ active) backlogBeadsL)
      backlogEpicsL)
    archivedL

mutual

/-- Modelled from the spec: depth-first, expansion-aware pre-order of one
bead — itself, then (if expanded) its subtasks. -/
def flattenBead (eB : List String) : Bead → List NavItem
  | .node a cs es =>
    ⟨a.id, "bead", .node a cs es⟩ ::
      (if eB.contains a.id then flattenBeadList eB cs else [])

def flattenBeadList (eB : List String) : List Bead → List NavItem
  | [] => []
  | b :: bs => flattenBead eB b ++ flattenBeadList eB bs

end

mutual

/-- Modelled from the spec: depth-first, expansion-aware pre-order of one
epic — itself, then (if expanded) its `childEpics` depth-first, then its
`children` depth-first. -/
def flattenEpic (eE eB : List String) : Bead → List NavItem
  | .node a cs es =>
    ⟨a.id, "epic", .node a cs es⟩ ::
      (if eE.contains a.id then
        flattenEpicList eE eB es ++ flattenBeadList eB cs
      else [])

def flattenEpicList (eE eB : List String) : List Bead → List NavItem
  | [] => []
  | e :: es => flattenEpic eE eB e ++ flattenEpicList eE eB es

end

/-- The id → index entries generated for a list of items starting at a
given offset. -/
def navIndexFrom : List NavItem → Nat → List (String × Nat)
  | [], _ => []
  | it :: rest, off => (it.id, off) :: navIndexFrom rest (off + 1)

theorem navIndexFrom_append (A B : List NavItem) :
    ∀ off, navIndexFrom (A ++ B) off =
      navIndexFrom A off ++ navIndexFrom B (off + A.length) := by
  induction A with
  | nil => intro off; simp [navIndexFrom]
  | cons x xs ih =>
    intro off
    simp only [List.cons_append, navIndexFrom, List.length_cons, List.append_eq]
    rw [ih (off + 1)]
    have h : off + 1 + xs.length = off + (xs.length + 1) := by omega
    rw [h]

theorem addBead_acc (eB : List String) :
    ∀ b st, addBead eB st b =
      ⟨st.items ++ flattenBead eB b,
        st.indexMap ++ navIndexFrom (flattenBead eB b) st.items.length⟩ := by
  have listStep : ∀ (cs : List Bead),
      (∀ c ∈ cs, ∀ st, addBead eB st c =
        ⟨st.items ++ flattenBead eB c,
          st.indexMap ++ navIndexFrom (flattenBead eB c) st.items.length⟩) →
      ∀ st, addBeadList eB st cs =
        ⟨st.items ++ flattenBeadList eB cs,
          st.indexMap ++ navIndexFrom (flattenBeadList eB cs) st.items.length⟩ := by
    intro cs
    induction cs with
    | nil => intro _ st; simp [addBeadList, flattenBeadList, navIndexFrom]
    | cons b bs ih =>
      intro h st
      have hb := h b (List.mem_cons_self _ _) st
      have hbs := ih (fun c hc => h c (List.mem_cons_of_mem _ hc))
      simp only [addBeadList, flattenBeadList]
      rw [hb, hbs]
      simp [navIndexFrom_append, List.append_assoc]
  intro b
  induction b using Bead.inductionOn with
  | step a cs es ihc _ =>
    intro st
    by_cases hexp : a.id ∈ eB
    · have hexp' : eB.contains a.id = true := by simpa using hexp
      simp only [addBead, flattenBead, hexp', if_pos]
      rw [listStep cs (fun c hc => ihc c hc)]
      simp [navIndexFrom, navIndexFrom_append, List.append_assoc, hexp]
    · have hexp' : eB.contains a.id = false := by simpa using hexp
      simp [addBead, flattenBead, hexp', hexp, navIndexFrom]

theorem addBeadList_acc (eB : List String) (cs : List Bead) :
    ∀ st, addBeadList eB st cs =
      ⟨st.items ++ flattenBeadList eB cs,
        st.indexMap ++ navIndexFrom (flattenBeadList eB cs) st.items.length⟩ := by
  induction cs with
  | nil => intro st; simp [addBeadList, flattenBeadList, navIndexFrom]
  | cons b bs ih =>
    intro st
    simp only [addBeadList, flattenBeadList]
    rw [addBead_acc, ih]
    simp [navIndexFrom_append, List.append_assoc]

theorem addEpic_acc (eE eB : List String) :
    ∀ e st, addEpic eE eB st e =
      ⟨st.items ++ flattenEpic eE eB e,
        st.indexMap ++ navIndexFrom (flattenEpic eE eB e) st.items.length⟩ := by
  have listStep : ∀ (es : List Bead),
      (∀ e ∈ es, ∀ st, addEpic eE eB st e =
        ⟨st.items ++ flattenEpic eE eB e,
          st.indexMap ++ navIndexFrom (flattenEpic eE eB e) st.items.length⟩) →
      ∀ st, addEpicList eE eB st es =
        ⟨st.items ++ flattenEpicList eE eB es,
          st.indexMap ++ navIndexFrom (flattenEpicList eE eB es) st.items.length⟩ := by
    intro es
    induction es with
    | nil => intro _ st; simp [addEpicList, flattenEpicList, navIndexFrom]
    | cons e es ih =>
      intro h st
      have he := h e (List.mem_cons_self _ _) st
      have hes := ih (fun x hx => h x (List.mem_cons_of_mem _ hx))
      simp only [addEpicList, flattenEpicList]
      rw [he, hes]
      simp [navIndexFrom_append, List.append_assoc]
  intro e
  induction e using Bead.inductionOn with
  | step a cs es _ ihe =>
    intro st
    by_cases hexp : a.id ∈ eE
    · have hexp' : eE.contains a.id = true := by simpa using hexp
      simp only [addEpic, flattenEpic, hexp', if_pos]
      rw [listStep es (fun x hx => ihe x hx), addBeadList_acc]
      simp only [navIndexFrom, navIndexFrom_append, List.append_assoc, hexp, if_pos,
        List.length_append, List.length_cons, List.cons_append, List.nil_append,
        NavState.mk.injEq]
      have h : st.items.length + ((flattenEpicList eE eB es).length + 1) =
          st.items.length + 1 + (flattenEpicList eE eB es).length := by omega
      rw [h]
      simp
    · have hexp' : eE.contains a.id = false := by simpa using hexp
      simp [addEpic, flattenEpic, hexp', hexp, navIndexFrom]

theorem addEpicList_acc (eE eB : List String) (es : List Bead) :
    ∀ st, addEpicList eE eB st es =
      ⟨st.items ++ flattenEpicList eE eB es,
        st.indexMap ++ navIndexFrom (flattenEpicList eE eB es) st.items.length⟩ := by
  induction es with
  | nil => intro st; simp [addEpicList, flattenEpicList, navIndexFrom]
  | cons e es ih =>
    intro st
    simp only [addEpicList, flattenEpicList]
    rw [addEpic_acc, ih]
    simp [navIndexFrom_append, List.append_assoc]

theorem mapGet_append {α : Type} (E1 E2 : List (String × α)) (k : String) :
    mapGet (E1 ++ E2) k =
      match mapGet E2 k with
      | some v => some v
      | none => mapGet E1 k := by
  simp only [mapGet, List.reverse_append, List.find?_append]
  cases h : E2.reverse.find? (fun e => e.1 == k) with
  | none => simp [Option.or]
  | some e => simp [Option.or]

theorem mapGet_navIndexFrom_none {k : String} :
    ∀ (l : List NavItem) (off : Nat), k ∉ l.map NavItem.id →
      mapGet (navIndexFrom l off) k = none := by
  intro l
  induction l with
  | nil => intro off _; simp [navIndexFrom, mapGet]
  | cons it rest ih =>
    intro off hk
    simp only [List.map_cons, List.mem_cons, not_or] at hk
    have h1 : (navIndexFrom (it :: rest) off) = [(it.id, off)] ++ navIndexFrom rest (off + 1) := by
      simp [navIndexFrom]
    rw [h1, mapGet_append, ih (off + 1) hk.2]
    have hne : (it.id == k) = false := beq_eq_false_iff_ne.mpr (fun h => hk.1 h.symm)
    simp [mapGet, List.find?, hne]

theorem mapGet_navIndexFrom {l : List NavItem} (hnd : (l.map NavItem.id).Nodup) :
    ∀ (off : Nat) (i : Nat) (h : i < l.length),
      mapGet (navIndexFrom l off) ((l.get ⟨i, h⟩).id) = some (off + i) := by
  induction l with
  | nil => intro off i h; cases h
  | cons it rest ih =>
    intro off i h
    simp only [List.map_cons, List.nodup_cons] at hnd
    have h1 : (navIndexFrom (it :: rest) off) = [(it.id, off)] ++ navIndexFrom rest (off + 1) := by
      simp [navIndexFrom]
    rw [h1, mapGet_append]
    cases i with
    | zero =>
      have hget0 : (it :: rest).get ⟨0, h⟩ = it := rfl
      rw [hget0, mapGet_navIndexFrom_none rest (off + 1) hnd.1]
      simp [mapGet, List.find?]
    | succ j =>
      have hj : j < rest.length := by simpa using h
      have := ih hnd.2 (off + 1) j hj
      have hget : (it :: rest).get ⟨j + 1, h⟩ = rest.get ⟨j, hj⟩ := rfl
      rw [hget, this]
      have harith : off + 1 + j = off + (j + 1) := by omega
      simp [harith]

/-- C7: the navigation projection lists items in depth-first,
expansion-aware pre-order — an epic contributes itself, then (if
expanded) its `childEpics`, then (if expanded) its `children`; a bead
contributes itself, then (if expanded) its subtasks — with the
partitions in the order active epics, backlog loose beads, backlog
epics, archived epics (conjuncts 1–2, against the order spec
`flattenEpic`/`flattenBead`); and, whenever the projected ids are
distinct, the companion map sends every projected item's id to its
position (`items.indexOf`). -/
theorem navigableItems_spec (active bb be ar : List Bead) (eE eB : List String) :
    (navigableItems active bb be ar eE eB).items =
      flattenEpicList eE eB active ++ flattenBeadList eB bb ++
        flattenEpicList eE eB be ++ flattenEpicList eE eB ar ∧
    (navigableItems active bb be ar eE eB).indexMap =
      navIndexFrom (navigableItems active bb be ar eE eB).items 0 ∧
    (((navigableItems active bb be ar eE eB).items.map NavItem.id).Nodup →
      (∀ (i : Nat) (h : i < (navigableItems active bb be ar eE eB).items.length),
        mapGet (navigableItems active bb be ar eE eB).indexMap
          (((navigableItems active bb be ar eE eB).items.get ⟨i, h⟩).id) = some i) ∧
      (∀ it ∈ (navigableItems active bb be ar eE eB).items,
        mapGet (navigableItems active bb be ar eE eB).indexMap it.id =
          some (List.indexOf it (navigableItems active bb be ar eE eB).items))) := by
  have hstate : navigableItems active bb be ar eE eB =
      ⟨flattenEpicList eE eB active ++ flattenBeadList eB bb ++
          flattenEpicList eE eB be ++ flattenEpicList eE eB ar,
        navIndexFrom
          (flattenEpicList eE eB active ++ flattenBeadList eB bb ++
            flattenEpicList eE eB be ++ flattenEpicList eE eB ar) 0⟩ := by
    simp only [navigableItems]
    rw [addEpicList_acc, addBeadList_acc, addEpicList_acc, addEpicList_acc]
    simp only [navIndexFrom_append, List.append_assoc, List.length_append, List.nil_append,
      Nat.zero_add]
    rw [Nat.add_assoc]
    simp
  have hitems : (navigableItems active bb be ar eE eB).items =
      flattenEpicList eE eB active ++ flattenBeadList eB bb ++
        flattenEpicList eE eB be ++ flattenEpicList eE eB ar := by
    rw [hstate]
  have hmap : (navigableItems active bb be ar eE eB).indexMap =
      navIndexFrom (navigableItems active bb be ar eE eB).items 0 := by
    rw [hstate]
  refine ⟨hitems, hmap, ?_⟩
  intro hnd
  have hidx : ∀ (i : Nat) (h : i < (navigableItems active bb be ar eE eB).items.length),
      mapGet (navigableItems active bb be ar eE eB).indexMap
        (((navigableItems active bb be ar eE eB).items.get ⟨i, h⟩).id) = some i := by
    intro i h
    rw [hmap]
    have := mapGet_navIndexFrom hnd 0 i h
    simpa using this
  refine ⟨hidx, ?_⟩
  intro it hit
  have hlt : List.indexOf it (navigableItems active bb be ar eE eB).items <
      (navigableItems active bb be ar eE eB).items.length :=
    List.indexOf_lt_length.mpr hit
  have hget := List.indexOf_get hlt
  have := hidx (List.indexOf it (navigableItems active bb be ar eE eB).items) hlt
  rw [hget] at this
  exact this

/-- C7 witness: with expanded epic `e1` containing bead `b1` and a
backlog loose bead `lb`, the index map agrees with `indexOf` for the
projected `b1` item. -/
theorem navigableItems_spec_witness :
    mapGet (navigableItems
        [Bead.node (mkAttrs "e1" "epic" "open")
          [Bead.node (mkAttrs "b1" "task" "open") [] []] []]
        [Bead.node (mkAttrs "lb" "task" "open") [] []] [] [] ["e1"] []).indexMap "b1" =
      some (List.indexOf
        (⟨"b1", "bead", Bead.node (mkAttrs "b1" "task" "open") [] []⟩ : NavItem)
        (navigableItems
          [Bead.node (mkAttrs "e1" "epic" "open")
            [Bead.node (mkAttrs "b1" "task" "open") [] []] []]
          [Bead.node (mkAttrs "lb" "task" "open") [] []] [] [] ["e1"] []).items) :=
  ((navigableItems_spec
      [Bead.node (mkAttrs "e1" "epic" "open")
        [Bead.node (mkAttrs "b1" "task" "open") [] []] []]
      [Bead.node (mkAttrs "lb" "task" "open") [] []] [] [] ["e1"] []).2.2
    (by decide)).2
    ⟨"b1", "bead", Bead.node (mkAttrs "b1" "task" "open") [] []⟩ (by decide)

/-! ### Sort engine (main page: `compareBead`, `sortBeads`, `sortEpics`) -/

/-- Sort field of `SortOption` (`filter-bar.tsx`). -/
inductive SortField where
  | title
  | priority
  | status
  | updated
deriving DecidableEq, Repr

/-- Sort direction of `SortOption`. -/
inductive SortDirection where
  | asc
  | desc
deriving DecidableEq, Repr

/-- The `SortOption` value object. -/
structure SortOption where
  field : SortField
  direction : SortDirection
deriving DecidableEq, Repr

/-- `priorityOrder` lookup: the record
`{critical: 0, high: 1, medium: 2, low: 3}`; a missing key yields
`undefined` (`none`), defaulted to 99 at use sites. -/
def priorityOrder (p : String) : Option Int :=
  if p = "critical" then some 0
  else if p = "high" then some 1
  else if p = "medium" then some 2
  else if p = "low" then some 3
  else none

/-- `statusOrder` lookup: `{open: 0, in_progress: 1, closed: 2}`. -/
def statusOrder (s : String) : Option Int :=
  if s = "open" then some 0
  else if s = "in_progress" then some 1
  else if s = "closed" then some 2
  else none

/-- JS `localeCompare`, modelled as comparison in the lexicographic
string order (a consistent total order, which is all the sort relies
on). -/
def localeCompare (a b : String) : Int :=
  if a < b then -1 else if b < a then 1 else 0

/-- `compareBead` from the epic viewer page; `desc` negates the
comparator, `updated` compares `getTime() ?? 0`. -/
def compareBead (a b : Bead) (sort : SortOption) : Int :=
  let cmp : Int :=
    match sort.field with
    | .title => localeCompare a.title b.title
    | .priority => (priorityOrder a.priority).getD 99 - (priorityOrder b.priority).getD 99
    | .status => (statusOrder a.status).getD 99 - (statusOrder b.status).getD 99
    | .updated => Int.ofNat (a.updatedAt.getD 0) - Int.ofNat (b.updatedAt.getD 0)
  match sort.direction with
  | .asc => cmp
  | .desc => -cmp

/-- The "comes no later than" relation induced by the comparator, the
order produced by the (stable) JS `Array.prototype.sort`. -/
def beadLe (sort : SortOption) (a b : Bead) : Prop := compareBead a b sort ≤ 0

instance (sort : SortOption) : DecidableRel (beadLe sort) := fun a b =>
  decidable_of_iff (compareBead a b sort ≤ 0) Iff.rfl

theorem localeCompare_neg (a b : String) : localeCompare a b = -localeCompare b a := by
  unfold localeCompare
  rcases lt_trichotomy a b with h | h | h
  · simp [h, asymm h]
  · simp [h, lt_irrefl]
  · simp [h, asymm h]

theorem localeCompare_le_zero (a b : String) : localeCompare a b ≤ 0 ↔ a ≤ b := by
  unfold localeCompare
  rcases lt_trichotomy a b with h | h | h
  · simp [h, le_of_lt h]
  · simp [h, le_of_eq h, lt_irrefl]
  · simp [h, asymm h, not_le.mpr h]

theorem localeCompare_nonneg (a b : String) : 0 ≤ localeCompare a b ↔ b ≤ a := by
  rw [localeCompare_neg, neg_nonneg, localeCompare_le_zero]

theorem compareBead_antisymm (a b : Bead) (sort : SortOption) :
    compareBead a b sort = -compareBead b a sort := by
  obtain ⟨f, d⟩ := sort
  have ht := localeCompare_neg a.title b.title
  cases f <;> cases d <;> simp only [compareBead] <;> omega

instance (sort : SortOption) : IsTotal Bead (beadLe sort) :=
  ⟨fun a b => by
    have h := compareBead_antisymm a b sort
    simp only [beadLe]
    omega⟩

instance (sort : SortOption) : IsTrans Bead (beadLe sort) :=
  ⟨fun a b c hab hbc => by
    obtain ⟨f, d⟩ := sort
    cases f <;> cases d <;> simp only [beadLe, compareBead] at hab hbc ⊢
    · rw [localeCompare_le_zero] at hab hbc ⊢
      exact le_trans hab hbc
    · have h1 : b.title ≤ a.title := (localeCompare_nonneg _ _).mp (by omega)
      have h2 : c.title ≤ b.title := (localeCompare_nonneg _ _).mp (by omega)
      have h3 : 0 ≤ localeCompare a.title c.title :=
        (localeCompare_nonneg _ _).mpr (le_trans h2 h1)
      omega
    all_goals omega⟩

mutual

/-- The per-element transform of `sortBeads`
(`{...bead, children: sortBeads(bead.children)}`). -/
def sortBeadTree (sort : SortOption) : Bead → Bead
  | .node a cs es =>
    .node a (List.insertionSort (beadLe sort) (sortBeadsMap sort cs)) es

def sortBeadsMap (sort : SortOption) : List Bead → List Bead
  | [] => []
  | b :: bs => sortBeadTree sort b :: sortBeadsMap sort bs

end

/-- `sortBeads` from the epic viewer page: copy, recursively sort each
bead's subtasks, then stably sort the siblings by the comparator. -/
def sortBeads (beads : List Bead) (sort : SortOption) : List Bead :=
  List.insertionSort (beadLe sort) (sortBeadsMap sort beads)

mutual

/-- The per-element transform of `sortEpics`
(`{...epic, children: sortBeads(children), childEpics: sortEpics(childEpics)}`). -/
def sortEpicTree (sort : SortOption) : Bead → Bead
  | .node a cs es =>
    .node a (sortBeads cs sort)
      (List.insertionSort (beadLe sort) (sortEpicsMap sort es))

def sortEpicsMap (sort : SortOption) : List Bead → List Bead
  | [] => []
  | e :: es => sortEpicTree sort e :: sortEpicsMap sort es

end

/-- `sortEpics` from the epic viewer page. -/
def sortEpics (epics : List Bead) (sort : SortOption) : List Bead :=
  List.insertionSort (beadLe sort) (sortEpicsMap sort epics)

theorem sortBeadsMap_eq_map (sort : SortOption) :
    ∀ l : List Bead, sortBeadsMap sort l = l.map (sortBeadTree sort) := by
  intro l
  induction l with
  | nil => simp [sortBeadsMap]
  | cons b bs ih => simp [sortBeadsMap, ih]

theorem sortEpicsMap_eq_map (sort : SortOption) :
    ∀ l : List Bead, sortEpicsMap sort l = l.map (sortEpicTree sort) := by
  intro l
  induction l with
  | nil => simp [sortEpicsMap]
  | cons e es ih => simp [sortEpicsMap, ih]

theorem map_self_eq {α : Type} {l : List α} {f : α → α} (h : ∀ a ∈ l, f a = a) :
    l.map f = l := by
  induction l with
  | nil => rfl
  | cons x xs ih =>
    simp only [List.map_cons]
    rw [h x (List.mem_cons_self _ _), ih (fun a ha => h a (List.mem_cons_of_mem _ ha))]

theorem sortBeadTree_idem (sort : SortOption) :
    ∀ b : Bead, sortBeadTree sort (sortBeadTree sort b) = sortBeadTree sort b := by
  intro b
  induction b using Bead.inductionOn with
  | step a cs es ihc _ =>
    simp only [sortBeadTree]
    congr 1
    have hfix : ∀ y ∈ List.insertionSort (beadLe sort) (sortBeadsMap sort cs),
        sortBeadTree sort y = y := by
      intro y hy
      have hy' : y ∈ sortBeadsMap sort cs :=
        (List.perm_insertionSort (beadLe sort) (sortBeadsMap sort cs)).mem_iff.mp hy
      rw [sortBeadsMap_eq_map] at hy'
      obtain ⟨c, hc, rfl⟩ := List.mem_map.mp hy'
      exact ihc c hc
    rw [sortBeadsMap_eq_map, map_self_eq hfix]
    exact List.Sorted.insertionSort_eq
      (List.sorted_insertionSort (beadLe sort) (sortBeadsMap sort cs))

theorem sortBeads_idem (l : List Bead) (sort : SortOption) :
    sortBeads (sortBeads l sort) sort = sortBeads l sort := by
  unfold sortBeads
  have hfix : ∀ y ∈ List.insertionSort (beadLe sort) (sortBeadsMap sort l),
      sortBeadTree sort y = y := by
    intro y hy
    have hy' : y ∈ sortBeadsMap sort l :=
      (List.perm_insertionSort (beadLe sort) (sortBeadsMap sort l)).mem_iff.mp hy
    rw [sortBeadsMap_eq_map] at hy'
    obtain ⟨c, _, rfl⟩ := List.mem_map.mp hy'
    exact sortBeadTree_idem sort c
  rw [sortBeadsMap_eq_map, map_self_eq hfix]
  exact List.Sorted.insertionSort_eq
    (List.sorted_insertionSort (beadLe sort) (sortBeadsMap sort l))

theorem sortEpicTree_idem (sort : SortOption) :
    ∀ e : Bead, sortEpicTree sort (sortEpicTree sort e) = sortEpicTree sort e := by
  intro e
  induction e using Bead.inductionOn with
  | step a cs es _ ihe =>
    simp only [sortEpicTree]
    congr 1
    · exact sortBeads_idem cs sort
    · have hfix : ∀ y ∈ List.insertionSort (beadLe sort) (sortEpicsMap sort es),
          sortEpicTree sort y = y := by
        intro y hy
        have hy' : y ∈ sortEpicsMap sort es :=
          (List.perm_insertionSort (beadLe sort) (sortEpicsMap sort es)).mem_iff.mp hy
        rw [sortEpicsMap_eq_map] at hy'
        obtain ⟨x, hx, rfl⟩ := List.mem_map.mp hy'
        exact ihe x hx
      rw [sortEpicsMap_eq_map, map_self_eq hfix]
      exact List.Sorted.insertionSort_eq
        (List.sorted_insertionSort (beadLe sort) (sortEpicsMap sort es))

theorem sortEpics_idem (l : List Bead) (sort : SortOption) :
    sortEpics (sortEpics l sort) sort = sortEpics l sort := by
  unfold sortEpics
  have hfix : ∀ y ∈ List.insertionSort (beadLe sort) (sortEpicsMap sort l),
      sortEpicTree sort y = y := by
    intro y hy
    have hy' : y ∈ sortEpicsMap sort l :=
      (List.perm_insertionSort (beadLe sort) (sortEpicsMap sort l)).mem_iff.mp hy
    rw [sortEpicsMap_eq_map] at hy'
    obtain ⟨x, _, rfl⟩ := List.mem_map.mp hy'
    exact sortEpicTree_idem sort x
  rw [sortEpicsMap_eq_map, map_self_eq hfix]
  exact List.Sorted.insertionSort_eq
    (List.sorted_insertionSort (beadLe sort) (sortEpicsMap sort l))

/-- The fixed status rank (`statusOrder[s] ?? 99`). -/
def statusRank (s : String) : Int := (statusOrder s).getD 99

/-- One sibling level is ordered by status rank (every element ranks no
higher than all elements after it). -/
def pairwiseLe : List Bead → Bool
  | [] => true
  | a :: rest =>
    rest.all (fun b => decide (statusRank a.status ≤ statusRank b.status)) && pairwiseLe rest

mutual

/-- Every sibling level inside a bead subtree is ordered by status rank. -/
def statusSortedBead : Bead → Bool
  | .node _ cs _ => pairwiseLe cs && statusSortedBeadList cs

def statusSortedBeadList : List Bead → Bool
  | [] => true
  | b :: bs => statusSortedBead b && statusSortedBeadList bs

end

mutual

/-- Every sibling level inside an epic subtree (its `children` subtrees
and its `childEpics`, recursively) is ordered by status rank. -/
def statusSortedEpic : Bead → Bool
  | .node _ cs es =>
    pairwiseLe cs && pairwiseLe es && statusSortedBeadList cs && statusSortedEpicList es

def statusSortedEpicList : List Bead → Bool
  | [] => true
  | e :: es => statusSortedEpic e && statusSortedEpicList es

end

theorem beadLe_status (a b : Bead) :
    beadLe ⟨.status, .asc⟩ a b ↔ statusRank a.status ≤ statusRank b.status := by
  simp only [beadLe, compareBead, statusRank]
  omega

theorem pairwiseLe_of_sorted :
    ∀ {l : List Bead}, List.Sorted (beadLe ⟨.status, .asc⟩) l → pairwiseLe l = true := by
  intro l h
  induction l with
  | nil => rfl
  | cons a rest ih =>
    rw [List.sorted_cons] at h
    simp only [pairwiseLe, Bool.and_eq_true]
    refine ⟨List.all_eq_true.mpr ?_, ih h.2⟩
    intro b hb
    simpa using (beadLe_status a b).mp (h.1 b hb)

theorem statusSortedBeadList_iff {l : List Bead} :
    statusSortedBeadList l = true ↔ ∀ x ∈ l, statusSortedBead x = true := by
  induction l with
  | nil => simp [statusSortedBeadList]
  | cons b bs ih =>
    simp only [statusSortedBeadList, Bool.and_eq_true, ih]
    constructor
    · rintro ⟨h1, h2⟩ x hx
      rcases List.mem_cons.mp hx with hx | hx
      · subst hx; exact h1
      · exact h2 x hx
    · intro h
      exact ⟨h b (List.mem_cons_self _ _), fun x hx => h x (List.mem_cons_of_mem _ hx)⟩

theorem statusSortedEpicList_iff {l : List Bead} :
    statusSortedEpicList l = true ↔ ∀ x ∈ l, statusSortedEpic x = true := by
  induction l with
  | nil => simp [statusSortedEpicList]
  | cons b bs ih =>
    simp only [statusSortedEpicList, Bool.and_eq_true, ih]
    constructor
    · rintro ⟨h1, h2⟩ x hx
      rcases List.mem_cons.mp hx with hx | hx
      · subst hx; exact h1
      · exact h2 x hx
    · intro h
      exact ⟨h b (List.mem_cons_self _ _), fun x hx => h x (List.mem_cons_of_mem _ hx)⟩

theorem statusSorted_sortBeadTree :
    ∀ b : Bead, statusSortedBead (sortBeadTree ⟨.status, .asc⟩ b) = true := by
  intro b
  induction b using Bead.inductionOn with
  | step a cs es ihc _ =>
    simp only [sortBeadTree, statusSortedBead, Bool.and_eq_true]
    constructor
    · exact pairwiseLe_of_sorted (List.sorted_insertionSort _ _)
    · rw [statusSortedBeadList_iff]
      intro x hx
      have hx' : x ∈ sortBeadsMap ⟨.status, .asc⟩ cs :=
        (List.perm_insertionSort _ _).mem_iff.mp hx
      rw [sortBeadsMap_eq_map] at hx'
      obtain ⟨c, hc, rfl⟩ := List.mem_map.mp hx'
      exact ihc c hc

theorem statusSorted_sortEpicTree :
    ∀ e : Bead, statusSortedEpic (sortEpicTree ⟨.status, .asc⟩ e) = true := by
  intro e
  induction e using Bead.inductionOn with
  | step a cs es _ ihe =>
    simp only [sortEpicTree, statusSortedEpic, Bool.and_eq_true, sortBeads]
    refine ⟨⟨⟨?_, ?_⟩, ?_⟩, ?_⟩
    · exact pairwiseLe_of_sorted (List.sorted_insertionSort _ _)
    · exact pairwiseLe_of_sorted (List.sorted_insertionSort _ _)
    · rw [statusSortedBeadList_iff]
      intro x hx
      have hx' : x ∈ sortBeadsMap ⟨.status, .asc⟩ cs :=
        (List.perm_insertionSort _ _).mem_iff.mp hx
      rw [sortBeadsMap_eq_map] at hx'
      obtain ⟨c, _, rfl⟩ := List.mem_map.mp hx'
      exact statusSorted_sortBeadTree c
    · rw [statusSortedEpicList_iff]
      intro x hx
      have hx' : x ∈ sortEpicsMap ⟨.status, .asc⟩ es :=
        (List.perm_insertionSort _ _).mem_iff.mp hx
      rw [sortEpicsMap_eq_map] at hx'
      obtain ⟨c, hc, rfl⟩ := List.mem_map.mp hx'
      exact ihe c hc

/-- C8: `sortEpics` is idempotent for every `SortOption`; sorting by
status ascending orders every sibling level of the output by the fixed
status rank (all `open` before all `in_progress` before all `closed`,
rank 0/1/2); an unknown custom status ranks last at 99; and the `desc`
direction negates the comparator. -/
theorem sortEpics_idempotent_and_status_order (l : List Bead) (sort : SortOption) :
    sortEpics (sortEpics l sort) sort = sortEpics l sort ∧
    (pairwiseLe (sortEpics l ⟨.status, .asc⟩) = true ∧
      statusSortedEpicList (sortEpics l ⟨.status, .asc⟩) = true) ∧
    (∀ s : String, s ≠ "open" → s ≠ "in_progress" → s ≠ "closed" → statusRank s = 99) ∧
    (∀ (a b : Bead) (f : SortField),
      compareBead a b ⟨f, .desc⟩ = -(compareBead a b ⟨f, .asc⟩)) := by
  refine ⟨sortEpics_idem l sort, ⟨?_, ?_⟩, ?_, ?_⟩
  · exact pairwiseLe_of_sorted (List.sorted_insertionSort _ _)
  · rw [statusSortedEpicList_iff]
    intro x hx
    have hx' : x ∈ sortEpicsMap ⟨.status, .asc⟩ l :=
      (List.perm_insertionSort _ _).mem_iff.mp hx
    rw [sortEpicsMap_eq_map] at hx'
    obtain ⟨c, _, rfl⟩ := List.mem_map.mp hx'
    exact statusSorted_sortEpicTree c
  · intro s h1 h2 h3
    simp [statusRank, statusOrder, h1, h2, h3]
  · intro a b f
    cases f <;> simp [compareBead]

/-- C8 witness: an unknown custom status ranks 99, and sorting a concrete
two-epic forest by status ascending twice gives the once-sorted order. -/
theorem sortEpics_idempotent_and_status_order_witness :
    statusRank "blocked_custom" = 99 ∧
    sortEpics
        (sortEpics
          [Bead.node (mkAttrs "e1" "epic" "closed") [] [],
            Bead.node (mkAttrs "e2" "epic" "open") [] []] ⟨.status, .asc⟩)
        ⟨.status, .asc⟩ =
      sortEpics
        [Bead.node (mkAttrs "e1" "epic" "closed") [] [],
          Bead.node (mkAttrs "e2" "epic" "open") [] []] ⟨.status, .asc⟩ :=
  ⟨(sortEpics_idempotent_and_status_order [] ⟨.title, .asc⟩).2.2.1 "blocked_custom"
      (by decide) (by decide) (by decide),
    (sortEpics_idempotent_and_status_order
      [Bead.node (mkAttrs "e1" "epic" "closed") [] [],
        Bead.node (mkAttrs "e2" "epic" "open") [] []] ⟨.status, .asc⟩).1⟩

/-! ### Hierarchy builder (`actions/epics.ts`: `buildEpicHierarchy`,
`buildBeadWithChildren`, `convertBead`; `lib/bd.ts`: `mapType`,
`toDate`) -/

/-- One raw tracker record (`BdBead` in `lib/bd.ts`) without its
`dependents` array.  `priority` is the bd number, `issue_type` the raw
string, timestamps are unix seconds, `dependency_type` is set on records
appearing inside a `dependents` array. -/
structure BdFields where
  id : String
  title : String
  description : Option String
  status : String
  priority : Int
  issue_type : String
  assignee : Option String
  labels : List String
  parent : Option String
  created_at : Nat
  updated_at : Nat
  deleted_at : Option String
  acceptance_criteria : Option String
  dependency_type : Option String
  dependent_count : Option Nat
deriving DecidableEq, Repr

/-- A raw tracker record together with its `dependents` (the batched
`bd show` result; the builder never reads a dependent's own
`dependents`, so one level suffices). -/
structure BdBead where
  fields : BdFields
  dependents : List BdFields
deriving DecidableEq, Repr

/-- JS truthiness of an optional string (`deleted_at` checks): `undefined`
and the empty string are falsy. -/
def truthyStr : Option String → Bool
  | none => false
  | some s => s ≠ ""

/-- `toDate` from `actions/epics.ts`: unix seconds → `Date`; `0` (and
`undefined`) are falsy and yield no date.  A `Date` is modelled by its
`getTime()` value (milliseconds). -/
def toDate (timestamp : Nat) : Option Nat :=
  if timestamp = 0 then none else some (timestamp * 1000)

/-- `mapType` from `lib/bd.ts`: case-insensitive mapping of the raw
`issue_type` with default `task` (the `undefined` branch is unreachable
here because `issue_type` is a required field). -/
def mapType (ty : String) : String :=
  let l := strToLower ty
  if l = "bug" then "bug"
  else if l = "feature" then "feature"
  else if l = "epic" then "epic"
  else if l = "chore" then "chore"
  else if l = "message" then "message"
  else if l = "gate" then "gate"
  else "task"

/-- The string carried by a dashboard priority. -/
def BeadPriority.str : BeadPriority → String
  | .critical => "critical"
  | .high => "high"
  | .medium => "medium"
  | .low => "low"

/-- `convertBead` from `actions/epics.ts` (comments and the fields the
tree engine never reads are omitted, see the header note). -/
def convertBead (bdBead : BdFields) : Bead :=
  .node
    { id := bdBead.id
      type := mapType bdBead.issue_type
      title := bdBead.title
      description := bdBead.description.getD ""
      acceptanceCriteria := bdBead.acceptance_criteria
      status := bdBead.status
      priority := (mapPriority bdBead.priority).str
      assignee := bdBead.assignee.getD ""
      labels := bdBead.labels
      parentId := bdBead.parent
      createdAt := toDate bdBead.created_at
      updatedAt := toDate bdBead.updated_at }
    [] []

/-- The epic-typed records of the flat list (`epicBeads`); `showBeads`
on their ids is modelled as returning these same records, whose
`dependents` field holds the batched fetch result. -/
def epicBeads (allBeads : List BdBead) : List BdBead :=
  allBeads.filter (fun b => b.fields.issue_type == "epic")

/-- The non-epic records of the flat list (`nonEpicBeads`). -/
def nonEpicBeads (allBeads : List BdBead) : List BdBead :=
  allBeads.filter (fun b => b.fields.issue_type != "epic")

/-- The `beadById` map (entry list; a later binding wins, as with
`Map.set`). -/
def beadById (allBeads : List BdBead) : List (String × BdFields) :=
  allBeads.map (fun b => (b.fields.id, b.fields))

/-- Non-epic records with `dependent_count > 0` (`parentBeadIds`); their
batched `showBeads` fetch is again modelled by the records themselves. -/
def parentBeads (allBeads : List BdBead) : List BdBead :=
  (nonEpicBeads allBeads).filter (fun b => 0 < b.fields.dependent_count.getD 0)

/-- The dependent edges kept everywhere: `parent-child` and neither
tombstoned nor deleted. -/
def liveParentChild (deps : List BdFields) : List BdFields :=
  (deps.filter (fun d => d.dependency_type == some "parent-child")).filter
    (fun d => d.status != "tombstone" && !truthyStr d.deleted_at)

/-- The `childrenByParent` map: each fetched parent bead's live
parent-child dependents, entered only when non-empty. -/
def childrenByParent (allBeads : List BdBead) : List (String × List BdFields) :=
  ((parentBeads allBeads).map (fun parent =>
    (parent.fields.id, liveParentChild parent.dependents))).filter
    (fun e => 0 < e.2.length)

/-- Fuel-indexed core of `buildBeadWithChildren`: fuel `5 - depth`
replaces the `depth >= 5` cut-off, so fuel 0 is a node at or beyond the
cap, returned leaf-only. -/
def buildBeadAux (cbp : List (String × List BdFields)) : Nat → BdFields → Bead
  | 0, bdBead => convertBead bdBead
  | Nat.succ fuel, bdBead =>
    match convertBead bdBead with
    | .node a _ _ =>
      .node a (((mapGet cbp bdBead.id).getD []).map (fun c => buildBeadAux cbp fuel c)) []

/-- `buildBeadWithChildren(bdBead, depth)` from `actions/epics.ts`:
materialize a bead and its recorded subtask nesting from memory, cut off
at depth 5. -/
def buildBeadWithChildren (cbp : List (String × List BdFields)) (bdBead : BdFields)
    (depth : Nat) : Bead :=
  buildBeadAux cbp (5 - depth) bdBead

/-- The `childBead.parentId = epic.id` assignment on a built node. -/
def setParentId (b : Bead) (pid : String) : Bead :=
  match b with
  | .node a cs es => .node { a with parentId := some pid } cs es

/-- The `epicMap` (id → epic record with dependents; last `set` wins). -/
def epicRecById (allBeads : List BdBead) : List (String × BdBead) :=
  (epicBeads allBeads).map (fun e => (e.fields.id, e))

/-- The `childEpicIds` claims made in the second pass: pairs
`(claimed child epic id, claiming epic id)`, in processing order — a
claim is recorded only when the child id is present in `epicMap`. -/
def epicClaims (allBeads : List BdBead) : List (String × String) :=
  (epicBeads allBeads).flatMap (fun e =>
    (liveParentChild e.dependents).filterMap (fun d =>
      if d.issue_type == "epic" && (mapGet (epicRecById allBeads) d.id).isSome then
        some (d.id, e.fields.id)
      else none))

/-- The set `childEpicIds`. -/
def childEpicIds (allBeads : List BdBead) : List String :=
  (epicClaims allBeads).map (fun c => c.1)

/-- One epic's `children`: its live parent-child non-epic dependents,
each materialized (from the flat-list record when the id resolves, else
from the dependent entry itself) with `parentId` overwritten. -/
def epicChildren (allBeads : List BdBead) (e : BdBead) : List Bead :=
  (liveParentChild e.dependents).filterMap (fun d =>
    if d.issue_type == "epic" then none
    else
      some (setParentId
        (buildBeadWithChildren (childrenByParent allBeads)
          ((mapGet (beadById allBeads) d.id).getD d) 0)
        e.fields.id))

/-- One epic's claimed child-epic records, in dependent order. -/
def epicChildEpicRecords (allBeads : List BdBead) (e : BdBead) : List BdBead :=
  (liveParentChild e.dependents).filterMap (fun d =>
    if d.issue_type == "epic" then mapGet (epicRecById allBeads) d.id
    else none)

/-- The attributes of a materialized epic node: `convertBead`, with
`type` forced to `"epic"` and `parentId` overwritten when some epic
claims it (the final mutation wins, i.e. the last claim). -/
def epicAttrs (allBeads : List BdBead) (e : BdBead) : Attrs :=
  { (convertBead e.fields).attrs with
    type := "epic",
    parentId :=
      match mapGet (epicClaims allBeads) e.fields.id with
      | some pid => some pid
      | none => (convertBead e.fields).attrs.parentId }

/-- Materialization of the mutated `epicMap` object graph as a tree,
with fuel bounding the `childEpics` nesting (the caller passes
`allBeads.length`, enough for any acyclic claim graph; on a cyclic graph
the JS objects form a cyclic reference structure that is no tree at
all). -/
def epicTreeAux (allBeads : List BdBead) : Nat → BdBead → Bead
  | 0, e => .node (epicAttrs allBeads e) (epicChildren allBeads e) []
  | Nat.succ fuel, e =>
    .node (epicAttrs allBeads e) (epicChildren allBeads e)
      ((epicChildEpicRecords allBeads e).map (fun c => epicTreeAux allBeads fuel c))

/-- Ids of all dependents recorded under epics (`beadsUnderEpics` —
note: every dependent counts, whatever its type or state). -/
def beadsUnderEpics (allBeads : List BdBead) : List String :=
  (epicBeads allBeads).flatMap (fun e => e.dependents.map (fun d => d.id))

/-- Ids of all beads claimed as subtasks (`beadsUnderParents`). -/
def beadsUnderParents (allBeads : List BdBead) : List String :=
  (childrenByParent allBeads).flatMap (fun e => e.2.map (fun d => d.id))

/-- `orphanBeads`: non-epic records claimed neither under an epic nor as
a subtask (no check of the `parent` field). -/
def orphanBeads (allBeads : List BdBead) : List BdBead :=
  (nonEpicBeads allBeads).filter (fun b =>
    !((beadsUnderEpics allBeads).contains b.fields.id) &&
      !((beadsUnderParents allBeads).contains b.fields.id))

/-- The synthetic `_standalone` epic holding the expanded orphans. -/
def standaloneEpic (allBeads : List BdBead) : Bead :=
  .node
    { id := "_standalone", type := "epic", title := "Beads (No Epic)",
      description := "Beads without a parent epic", acceptanceCriteria := none,
      status := "open", priority := "low", assignee := "", labels := [],
      parentId := none, createdAt := none, updatedAt := none }
    ((orphanBeads allBeads).map
      (fun b => buildBeadWithChildren (childrenByParent allBeads) b.fields 0))
    []

/-- `buildEpicHierarchy` (success path of both batched fetches, modelled
as returning the records of the flat list, which carry the dependents
mapping): top-level epics are those not claimed as a child epic, plus
the `_standalone` epic when orphans exist. -/
def buildEpicHierarchy (allBeads : List BdBead) : List Bead :=
  let topLevel := ((epicBeads allBeads).filter
    (fun e => !((childEpicIds allBeads).contains e.fields.id))).map
    (fun e => epicTreeAux allBeads allBeads.length e)
  if 0 < (orphanBeads allBeads).length then topLevel ++ [standaloneEpic allBeads]
  else topLevel

mutual

/-- All issue ids reachable from a built node. -/
def collectIds : Bead → List String
  | .node a cs es => a.id :: (collectIdsList cs ++ collectIdsList es)

def collectIdsList : List Bead → List String
  | [] => []
  | b :: bs => collectIds b ++ collectIdsList bs

end

mutual

/-- Depth of subtask nesting below a node (edges through `children`). -/
def subtaskHeight : Bead → Nat
  | .node _ cs _ => subtaskHeightList cs

def subtaskHeightList : List Bead → Nat
  | [] => 0
  | c :: rest => max (1 + subtaskHeight c) (subtaskHeightList rest)

end

theorem buildBeadAux_height (cbp : List (String × List BdFields)) :
    ∀ (fuel : Nat) (b : BdFields), subtaskHeight (buildBeadAux cbp fuel b) ≤ fuel := by
  intro fuel
  induction fuel with
  | zero =>
    intro b
    simp [buildBeadAux, convertBead, subtaskHeight, subtaskHeightList]
  | succ n ih =>
    intro b
    have hlist : ∀ cs : List BdFields,
        subtaskHeightList (cs.map (fun c => buildBeadAux cbp n c)) ≤ n + 1 := by
      intro cs
      induction cs with
      | nil => simp [subtaskHeightList]
      | cons c rest ihrest =>
        simp only [List.map_cons, subtaskHeightList]
        have := ih c
        omega
    simp only [buildBeadAux, convertBead, subtaskHeight]
    exact hlist _

/-- A raw subtask record used by the concrete depth-cap inputs. -/
def mkBd (id : String) : BdFields :=
  { id := id, title := id, description := none, status := "open", priority := 2,
    issue_type := "task", assignee := none, labels := [], parent := none,
    created_at := 0, updated_at := 0, deleted_at := none, acceptance_criteria := none,
    dependency_type := some "parent-child", dependent_count := some 1 }

/-- A synthetic chain of 10 nested parent-child subtasks
(`b0 → b1 → … → b9`) as a `childrenByParent` mapping. -/
def chainCbp : List (String × List BdFields) :=
  [("b0", [mkBd "b1"]), ("b1", [mkBd "b2"]), ("b2", [mkBd "b3"]),
    ("b3", [mkBd "b4"]), ("b4", [mkBd "b5"]), ("b5", [mkBd "b6"]),
    ("b6", [mkBd "b7"]), ("b7", [mkBd "b8"]), ("b8", [mkBd "b9"])]

/-- C4: `buildBeadWithChildren` is total on every `childrenByParent`
mapping — it is a total function here, with recursion cut off by the
depth cap of 5: a node at or beyond the cap is returned leaf-only
(exactly `convertBead`), every result nests subtasks at most 5 deep, the
synthetic 10-chain builds a tree truncated at depth 5 (ids `b0 … b5`),
and even a cyclic mapping (`a → a`) terminates with a depth-5 tree. -/
theorem buildBeadWithChildren_depth_cap :
    (∀ (cbp : List (String × List BdFields)) (b : BdFields) (depth : Nat),
      5 ≤ depth → buildBeadWithChildren cbp b depth = convertBead b) ∧
    (∀ (cbp : List (String × List BdFields)) (b : BdFields) (depth : Nat),
      subtaskHeight (buildBeadWithChildren cbp b depth) ≤ 5) ∧
    collectIds (buildBeadWithChildren chainCbp (mkBd "b0") 0) =
      ["b0", "b1", "b2", "b3", "b4", "b5"] ∧
    subtaskHeight (buildBeadWithChildren chainCbp (mkBd "b0") 0) = 5 ∧
    subtaskHeight (buildBeadWithChildren [("a", [mkBd "a"])] (mkBd "a") 0) = 5 := by
  refine ⟨?_, ?_, by decide, by decide, by decide⟩
  · intro cbp b depth h
    unfold buildBeadWithChildren
    have h0 : 5 - depth = 0 := by omega
    rw [h0]
    rfl
  · intro cbp b depth
    have := buildBeadAux_height cbp (5 - depth) b
    unfold buildBeadWithChildren
    omega

/-- C4 witness: the node at depth 5 of the 10-chain is returned
leaf-only. -/
theorem buildBeadWithChildren_depth_cap_witness :
    buildBeadWithChildren chainCbp (mkBd "b5") 5 = convertBead (mkBd "b5") :=
  buildBeadWithChildren_depth_cap.1 chainCbp (mkBd "b5") 5 (by decide)

theorem mapGet_mem {α : Type} {l : List (String × α)} {k : String} {v : α}
    (h : mapGet l k = some v) : (k, v) ∈ l := by
  simp only [mapGet, Option.map_eq_some'] at h
  obtain ⟨e, he, hev⟩ := h
  have hmem := List.mem_of_find?_eq_some he
  have hpred := List.find?_some he
  rw [List.mem_reverse] at hmem
  have hk : e.1 = k := by simpa using hpred
  have : e = (k, v) := by
    cases e
    simp only at hk hev
    simp [hk, hev]
  rw [this] at hmem
  exact hmem

theorem mapGet_none_of_not_mem_keys {α : Type} {l : List (String × α)} {k : String}
    (h : k ∉ l.map Prod.fst) : mapGet l k = none := by
  simp only [mapGet, Option.map_eq_none', List.find?_eq_none]
  intro e he
  rw [List.mem_reverse] at he
  have : e.1 ∈ l.map Prod.fst := List.mem_map.mpr ⟨e, he, rfl⟩
  simp only [beq_eq_false_iff_ne.symm]
  by_contra hb
  rw [Bool.not_eq_false] at hb
  have : e.1 = k := by simpa using hb
  subst this
  exact h ‹e.1 ∈ l.map Prod.fst›

theorem mapGet_of_nodup_keys {α : Type} {l : List (String × α)} {k : String} {v : α}
    (hnd : (l.map Prod.fst).Nodup) (hmem : (k, v) ∈ l) : mapGet l k = some v := by
  induction l with
  | nil => cases hmem
  | cons e rest ih =>
    simp only [List.map_cons, List.nodup_cons] at hnd
    have happ : mapGet (e :: rest) k = mapGet ([e] ++ rest) k := rfl
    rw [happ, mapGet_append]
    rcases List.mem_cons.mp hmem with hmem | hmem
    · subst hmem
      rw [mapGet_none_of_not_mem_keys hnd.1]
      simp [mapGet, List.find?]
    · rw [ih hnd.2 hmem]

theorem mem_collectIdsList {i : String} :
    ∀ {l : List Bead}, i ∈ collectIdsList l ↔ ∃ b ∈ l, i ∈ collectIds b := by
  intro l
  induction l with
  | nil => simp [collectIdsList]
  | cons b bs ih =>
    simp only [collectIdsList, List.mem_append, ih]
    constructor
    · rintro (h | ⟨b', hb', h⟩)
      · exact ⟨b, List.mem_cons_self _ _, h⟩
      · exact ⟨b', List.mem_cons_of_mem _ hb', h⟩
    · rintro ⟨b', hb', h⟩
      rcases List.mem_cons.mp hb' with hb' | hb'
      · subst hb'; exact Or.inl h
      · exact Or.inr ⟨b', hb', h⟩

theorem collectIds_setParentId (b : Bead) (pid : String) :
    collectIds (setParentId b pid) = collectIds b := by
  cases b with
  | node a cs es => rfl

theorem allIds_nodup_unique {allBeads : List BdBead}
    (hnd : (allBeads.map (fun b => b.fields.id)).Nodup) :
    ∀ a ∈ allBeads, ∀ b ∈ allBeads, a.fields.id = b.fields.id → a = b := by
  intro a ha b hb hid
  exact List.inj_on_of_nodup_map hnd ha hb hid

/-- Two raw records agree on every field except the edge-specific
`dependency_type` (a dependents entry versus the flat-list record it
refers to). -/
def agreeModDep (d r : BdFields) : Prop :=
  { d with dependency_type := none } = { r with dependency_type := none }

theorem agreeModDep_fields {d r : BdFields} (h : agreeModDep d r) :
    d.id = r.id ∧ d.issue_type = r.issue_type ∧ d.status = r.status ∧
      d.deleted_at = r.deleted_at ∧ convertBead d = convertBead r := by
  cases d
  cases r
  simp only [agreeModDep, BdFields.mk.injEq, and_true, true_and] at h
  obtain ⟨h1, h2, h3, h4, h5, h6, h7, h8, h9, h10, h11, h12, h13, h14⟩ := h
  subst h1; subst h2; subst h3; subst h4; subst h5; subst h6; subst h7
  subst h8; subst h9; subst h10; subst h11; subst h12; subst h13; subst h14
  exact ⟨rfl, rfl, rfl, rfl, rfl⟩

/-- The set of input issue ids. -/
def allIds (allBeads : List BdBead) : List String :=
  allBeads.map (fun b => b.fields.id)

/-- The input issue ids that are neither tombstoned nor deleted. -/
def liveIds (allBeads : List BdBead) : List String :=
  ((allBeads.filter
    (fun b => b.fields.status != "tombstone" && !truthyStr b.fields.deleted_at)).map
    (fun b => b.fields.id))

/-- Coherence of the flat list with its recorded dependents: unique ids,
no tombstoned/deleted records, every dependent edge is a live
parent-child edge whose entry agrees (modulo `dependency_type`) with a
flat-list record, and the reserved `_standalone` id is unused. -/
structure Coherent (allBeads : List BdBead) : Prop where
  nodup : (allBeads.map (fun b => b.fields.id)).Nodup
  live : ∀ b ∈ allBeads, b.fields.status ≠ "tombstone" ∧ b.fields.deleted_at = none
  deps : ∀ b ∈ allBeads, ∀ d ∈ b.dependents,
    d.dependency_type = some "parent-child" ∧ ∃ r ∈ allBeads, agreeModDep d r.fields
  noStandalone : "_standalone" ∉ allBeads.map (fun b => b.fields.id)

theorem epicBeads_subset {allBeads : List BdBead} {e : BdBead}
    (h : e ∈ epicBeads allBeads) : e ∈ allBeads :=
  (List.mem_filter.mp h).1

theorem nonEpicBeads_subset {allBeads : List BdBead} {b : BdBead}
    (h : b ∈ nonEpicBeads allBeads) : b ∈ allBeads :=
  (List.mem_filter.mp h).1

theorem parentBeads_subset {allBeads : List BdBead} {b : BdBead}
    (h : b ∈ parentBeads allBeads) : b ∈ allBeads :=
  nonEpicBeads_subset (List.mem_filter.mp h).1

theorem liveParentChild_subset {deps : List BdFields} {d : BdFields}
    (h : d ∈ liveParentChild deps) : d ∈ deps :=
  List.mem_filter.mp ((List.mem_filter.mp h).1) |>.1

theorem liveParentChild_eq_of_coherent {allBeads : List BdBead}
    (hco : Coherent allBeads) {b : BdBead} (hb : b ∈ allBeads) :
    liveParentChild b.dependents = b.dependents := by
  unfold liveParentChild
  rw [List.filter_eq_self.mpr, List.filter_eq_self.mpr]
  · intro d hd
    obtain ⟨hdt, _⟩ := hco.deps b hb d hd
    simp [hdt]
  · intro d hd
    have hd' : d ∈ b.dependents := (List.mem_filter.mp hd).1
    obtain ⟨_, r, hr, hagree⟩ := hco.deps b hb d hd'
    obtain ⟨_, _, hst, hdel, _⟩ := agreeModDep_fields hagree
    obtain ⟨hrst, hrdel⟩ := hco.live r hr
    simp [hst, hdel, hrst, hrdel, truthyStr]

theorem mem_childrenByParent {allBeads : List BdBead} {pe : String × List BdFields}
    (h : pe ∈ childrenByParent allBeads) :
    ∃ p ∈ parentBeads allBeads,
      pe = (p.fields.id, liveParentChild p.dependents) := by
  have h1 : pe ∈ (parentBeads allBeads).map
      (fun parent => (parent.fields.id, liveParentChild parent.dependents)) :=
    (List.mem_filter.mp h).1
  obtain ⟨p, hp, hpe⟩ := List.mem_map.mp h1
  exact ⟨p, hp, hpe.symm⟩

theorem mem_beadsUnderParents {allBeads : List BdBead} {pe : String × List BdFields}
    {c : BdFields} (hpe : pe ∈ childrenByParent allBeads) (hc : c ∈ pe.2) :
    c.id ∈ beadsUnderParents allBeads := by
  simp only [beadsUnderParents, List.mem_flatMap]
  exact ⟨pe, hpe, List.mem_map.mpr ⟨c, hc, rfl⟩⟩

theorem beadsUnderParents_subset_allIds {allBeads : List BdBead}
    (hco : Coherent allBeads) {i : String} (h : i ∈ beadsUnderParents allBeads) :
    i ∈ allIds allBeads := by
  simp only [beadsUnderParents, List.mem_flatMap] at h
  obtain ⟨pe, hpe, hi⟩ := h
  obtain ⟨c, hc, rfl⟩ := List.mem_map.mp hi
  obtain ⟨p, hp, hpeq⟩ := mem_childrenByParent hpe
  subst hpeq
  have hc' : c ∈ p.dependents := liveParentChild_subset hc
  obtain ⟨_, r, hr, hagree⟩ := hco.deps p (parentBeads_subset hp) c hc'
  obtain ⟨hid, _⟩ := agreeModDep_fields hagree
  rw [hid]
  exact List.mem_map.mpr ⟨r, hr, rfl⟩

theorem convertBead_attrs_id (x : BdFields) : (convertBead x).attrs.id = x.id := rfl

theorem buildBeadAux_collect_subset (allBeads : List BdBead) :
    ∀ (fuel : Nat) (x : BdFields) (i : String),
      i ∈ collectIds (buildBeadAux (childrenByParent allBeads) fuel x) →
      i = x.id ∨ i ∈ beadsUnderParents allBeads := by
  intro fuel
  induction fuel with
  | zero =>
    intro x i h
    simp [buildBeadAux, convertBead, collectIds, collectIdsList] at h
    exact Or.inl h
  | succ n ih =>
    intro x i h
    simp only [buildBeadAux, convertBead, collectIds, List.append_nil,
      collectIdsList] at h
    rcases List.mem_cons.mp h with h | h
    · exact Or.inl h
    · rw [mem_collectIdsList] at h
      obtain ⟨built, hbuilt, hib⟩ := h
      obtain ⟨c, hc, rfl⟩ := List.mem_map.mp hbuilt
      rcases ih c i hib with hic | hic
      · right
        subst hic
        cases hmg : mapGet (childrenByParent allBeads) x.id with
        | none => simp [hmg] at hc
        | some vals =>
          have hpe := mapGet_mem hmg
          simp [hmg] at hc
          exact mem_beadsUnderParents hpe hc
      · exact Or.inr hic

theorem mem_beadById {allBeads : List BdBead} {k : String} {f : BdFields}
    (h : mapGet (beadById allBeads) k = some f) :
    ∃ b ∈ allBeads, f = b.fields ∧ k = b.fields.id := by
  have := mapGet_mem h
  simp only [beadById, List.mem_map] at this
  obtain ⟨b, hb, heq⟩ := this
  exact ⟨b, hb, by simpa using congrArg Prod.snd heq.symm,
    by simpa using congrArg Prod.fst heq.symm⟩

theorem mem_epicRecById {allBeads : List BdBead} {k : String} {c : BdBead}
    (h : mapGet (epicRecById allBeads) k = some c) :
    c ∈ epicBeads allBeads ∧ k = c.fields.id := by
  have := mapGet_mem h
  simp only [epicRecById, List.mem_map] at this
  obtain ⟨e, he, heq⟩ := this
  have h2 : c = e := by simpa using congrArg Prod.snd heq.symm
  have h1 : k = e.fields.id := by simpa using congrArg Prod.fst heq.symm
  subst h2
  exact ⟨he, h1⟩

theorem mem_epicChildEpicRecords {allBeads : List BdBead} {e c : BdBead}
    (h : c ∈ epicChildEpicRecords allBeads e) : c ∈ epicBeads allBeads := by
  simp only [epicChildEpicRecords, List.mem_filterMap] at h
  obtain ⟨d, _, hif⟩ := h
  by_cases hd : (d.issue_type == "epic") = true
  · rw [if_pos hd] at hif
    exact (mem_epicRecById hif).1
  · rw [if_neg hd] at hif
    cases hif

theorem epicChildren_collect_subset {allBeads : List BdBead}
    (hco : Coherent allBeads) {e : BdBead} (he : e ∈ allBeads) :
    ∀ i ∈ collectIdsList (epicChildren allBeads e), i ∈ allIds allBeads := by
  intro i hi
  rw [mem_collectIdsList] at hi
  obtain ⟨built, hbuilt, hib⟩ := hi
  simp only [epicChildren, List.mem_filterMap] at hbuilt
  obtain ⟨d, hd, hif⟩ := hbuilt
  by_cases hdt : (d.issue_type == "epic") = true
  · rw [if_pos hdt] at hif; cases hif
  · rw [if_neg hdt] at hif
    cases hif
    rw [collectIds_setParentId] at hib
    rcases buildBeadAux_collect_subset allBeads 5
        ((mapGet (beadById allBeads) d.id).getD d) i hib with hroot | hsub
    · subst hroot
      cases hmg : mapGet (beadById allBeads) d.id with
      | some f =>
        obtain ⟨b, hb, hf, _⟩ := mem_beadById hmg
        simp only [hmg, Option.getD_some]
        rw [hf]
        exact List.mem_map.mpr ⟨b, hb, rfl⟩
      | none =>
        simp only [hmg, Option.getD_none]
        have hd' : d ∈ e.dependents := liveParentChild_subset hd
        obtain ⟨_, r, hr, hagree⟩ := hco.deps e he d hd'
        obtain ⟨hid, _⟩ := agreeModDep_fields hagree
        rw [hid]
        exact List.mem_map.mpr ⟨r, hr, rfl⟩
    · exact beadsUnderParents_subset_allIds hco hsub

theorem epicTreeAux_collect_subset {allBeads : List BdBead}
    (hco : Coherent allBeads) :
    ∀ (fuel : Nat) (e : BdBead), e ∈ epicBeads allBeads →
      ∀ i ∈ collectIds (epicTreeAux allBeads fuel e), i ∈ allIds allBeads := by
  intro fuel
  induction fuel with
  | zero =>
    intro e he i hi
    simp only [epicTreeAux, collectIds, collectIdsList, List.append_nil] at hi
    rcases List.mem_cons.mp hi with hi | hi
    · subst hi
      exact List.mem_map.mpr ⟨e, epicBeads_subset he, rfl⟩
    · exact epicChildren_collect_subset hco (epicBeads_subset he) i hi
  | succ n ih =>
    intro e he i hi
    simp only [epicTreeAux, collectIds] at hi
    rcases List.mem_cons.mp hi with hi | hi
    · subst hi
      exact List.mem_map.mpr ⟨e, epicBeads_subset he, rfl⟩
    · rw [List.mem_append] at hi
      rcases hi with hi | hi
      · exact epicChildren_collect_subset hco (epicBeads_subset he) i hi
      · rw [mem_collectIdsList] at hi
        obtain ⟨t, ht, hit⟩ := hi
        obtain ⟨c, hc, rfl⟩ := List.mem_map.mp ht
        exact ih c (mem_epicChildEpicRecords hc) i hit

theorem standalone_collect_subset {allBeads : List BdBead}
    (hco : Coherent allBeads) :
    ∀ i ∈ collectIds (standaloneEpic allBeads),
      i = "_standalone" ∨ i ∈ allIds allBeads := by
  intro i hi
  simp only [standaloneEpic, collectIds, collectIdsList, List.append_nil] at hi
  rcases List.mem_cons.mp hi with hi | hi
  · exact Or.inl hi
  · right
    rw [mem_collectIdsList] at hi
    obtain ⟨built, hbuilt, hib⟩ := hi
    obtain ⟨b, hb, rfl⟩ := List.mem_map.mp hbuilt
    have hb' : b ∈ allBeads := nonEpicBeads_subset (List.mem_filter.mp hb).1
    rcases buildBeadAux_collect_subset allBeads 5 b.fields i hib with hroot | hsub
    · subst hroot
      exact List.mem_map.mpr ⟨b, hb', rfl⟩
    · exact beadsUnderParents_subset_allIds hco hsub

/-- Chains of the recorded subtask relation: `SubReach x q k` means id
`q` is reached from id `x` in `k` `childrenByParent` steps. -/
inductive SubReach (allBeads : List BdBead) : String → String → Nat → Prop where
  | refl (x : String) : SubReach allBeads x x 0
  | step {p c q : String} {k : Nat} :
      (∃ entry ∈ (mapGet (childrenByParent allBeads) p).getD [], entry.id = c) →
      SubReach allBeads c q k → SubReach allBeads p q (k + 1)

theorem SubReach.snocSub {allBeads : List BdBead} :
    ∀ {r p : String} {k : Nat}, SubReach allBeads r p k →
      ∀ {c : String},
        (∃ entry ∈ (mapGet (childrenByParent allBeads) p).getD [], entry.id = c) →
        SubReach allBeads r c (k + 1) := by
  intro r p k h
  induction h with
  | refl x => intro c hc; exact SubReach.step hc (SubReach.refl c)
  | step h1 _ ih => intro c hc; exact SubReach.step h1 (ih hc)

theorem subReach_collect {allBeads : List BdBead} :
    ∀ {x q : String} {k : Nat}, SubReach allBeads x q k →
      ∀ (fuel : Nat), k ≤ fuel → ∀ y : BdFields, y.id = x →
        q ∈ collectIds (buildBeadAux (childrenByParent allBeads) fuel y) := by
  intro x q k h
  induction h with
  | refl x =>
    intro fuel _ y hy
    cases fuel with
    | zero => simp [buildBeadAux, convertBead, collectIds, collectIdsList, hy]
    | succ m =>
      simp only [buildBeadAux, convertBead, collectIds]
      exact List.mem_cons.mpr (Or.inl hy.symm)
  | step hstep _ ih =>
    intro fuel hk y hy
    cases fuel with
    | zero => omega
    | succ m =>
      obtain ⟨entry, hentry, hcid⟩ := hstep
      have hq := ih m (by omega) entry hcid
      simp only [buildBeadAux, convertBead, collectIds]
      refine List.mem_cons.mpr (Or.inr (List.mem_append.mpr (Or.inl ?_)))
      rw [mem_collectIdsList]
      refine ⟨buildBeadAux (childrenByParent allBeads) m entry, ?_, hq⟩
      rw [hy]
      exact List.mem_map.mpr ⟨entry, hentry, rfl⟩

/-- Chains of the child-epic claim relation on epic records. -/
inductive EpicReach (allBeads : List BdBead) : BdBead → BdBead → Nat → Prop where
  | refl (e : BdBead) : EpicReach allBeads e e 0
  | step {p c q : BdBead} {k : Nat} :
      c ∈ epicChildEpicRecords allBeads p → EpicReach allBeads c q k →
      EpicReach allBeads p q (k + 1)

theorem EpicReach.snocEpic {allBeads : List BdBead} :
    ∀ {r p : BdBead} {k : Nat}, EpicReach allBeads r p k →
      ∀ {c : BdBead}, c ∈ epicChildEpicRecords allBeads p →
        EpicReach allBeads r c (k + 1) := by
  intro r p k h
  induction h with
  | refl e => intro c hc; exact EpicReach.step hc (EpicReach.refl c)
  | step h1 _ ih => intro c hc; exact EpicReach.step h1 (ih hc)

theorem epicReach_collect {allBeads : List BdBead} :
    ∀ {p q : BdBead} {k : Nat}, EpicReach allBeads p q k →
      ∀ (fuel : Nat), k < fuel →
        ∀ i ∈ collectIds (epicTreeAux allBeads 0 q),
          i ∈ collectIds (epicTreeAux allBeads fuel p) := by
  intro p q k h
  induction h with
  | refl e =>
    intro fuel _ i hi
    cases fuel with
    | zero => exact hi
    | succ m =>
      simp only [epicTreeAux, collectIds, collectIdsList, List.append_nil] at hi
      simp only [epicTreeAux, collectIds]
      rcases List.mem_cons.mp hi with hi | hi
      · exact List.mem_cons.mpr (Or.inl hi)
      · exact List.mem_cons.mpr (Or.inr (List.mem_append.mpr (Or.inl hi)))
  | step hstep _ ih =>
    intro fuel hk i hi
    cases fuel with
    | zero => omega
    | succ m =>
      have hq := ih m (by omega) i hi
      simp only [epicTreeAux, collectIds]
      refine List.mem_cons.mpr (Or.inr (List.mem_append.mpr (Or.inr ?_)))
      rw [mem_collectIdsList]
      exact ⟨epicTreeAux allBeads m _, List.mem_map.mpr ⟨_, hstep, rfl⟩, hq⟩

theorem epicReach_exists {allBeads : List BdBead} (hco : Coherent allBeads)
    (rank : String → Nat) (N : Nat)
    (hclaim : ∀ pr ∈ epicClaims allBeads, rank pr.1 < rank pr.2)
    (hbound : ∀ e ∈ epicBeads allBeads, rank e.fields.id < N) :
    ∀ e ∈ epicBeads allBeads, ∃ p k, p ∈ epicBeads allBeads ∧
      ((childEpicIds allBeads).contains p.fields.id) = false ∧
      EpicReach allBeads p e k ∧ k + rank e.fields.id ≤ rank p.fields.id := by
  have key : ∀ (m : Nat), ∀ e ∈ epicBeads allBeads,
      N - rank e.fields.id ≤ m → ∃ p k, p ∈ epicBeads allBeads ∧
        ((childEpicIds allBeads).contains p.fields.id) = false ∧
        EpicReach allBeads p e k ∧ k + rank e.fields.id ≤ rank p.fields.id := by
    intro m
    induction m using Nat.strong_induction_on with
    | _ m ih =>
      intro e he hrm
      have heN := hbound e he
      by_cases hcl : ((childEpicIds allBeads).contains e.fields.id) = true
      · have hmem : e.fields.id ∈ childEpicIds allBeads := by simpa using hcl
        simp only [childEpicIds, List.mem_map] at hmem
        obtain ⟨pr, hpr, hfst⟩ := hmem
        have hrank := hclaim pr hpr
        simp only [epicClaims, List.mem_flatMap] at hpr
        obtain ⟨p', hp', hprmem⟩ := hpr
        simp only [List.mem_filterMap] at hprmem
        obtain ⟨d, hd, hif⟩ := hprmem
        by_cases hcond : (d.issue_type == "epic" &&
            (mapGet (epicRecById allBeads) d.id).isSome) = true
        · rw [if_pos hcond] at hif
          cases hif
          simp only at hfst
          simp only [Bool.and_eq_true, Option.isSome_iff_exists] at hcond
          obtain ⟨hdt, c, hc⟩ := hcond
          obtain ⟨hcepic, hcid⟩ := mem_epicRecById hc
          have hceq : c.fields.id = e.fields.id := by
            rw [← hcid]
            exact hfst
          have hce : c = e := allIds_nodup_unique hco.nodup c (epicBeads_subset hcepic)
            e (epicBeads_subset he) hceq
          have hrec : e ∈ epicChildEpicRecords allBeads p' := by
            simp only [epicChildEpicRecords, List.mem_filterMap]
            refine ⟨d, hd, ?_⟩
            rw [if_pos hdt, hc, hce]
          have hrank' : rank d.id < rank p'.fields.id := by simpa using hrank
          have hlt : rank e.fields.id < rank p'.fields.id := by
            rw [← hfst]
            exact hrank'
          have hpN := hbound p' hp'
          obtain ⟨P, k, hP, hPun, hreach, hkb⟩ :=
            ih (m - 1) (by omega) p' hp' (by omega)
          exact ⟨P, k + 1, hP, hPun, hreach.snocEpic hrec, by omega⟩
        · rw [if_neg hcond] at hif
          cases hif
      · exact ⟨e, 0, he, by simpa using hcl, EpicReach.refl e, by omega⟩
  intro e he
  exact key (N - rank e.fields.id) e he (Nat.le_refl _)

theorem topLevel_tree_in_forest {allBeads : List BdBead} {p : BdBead}
    (hp : p ∈ epicBeads allBeads)
    (hun : ((childEpicIds allBeads).contains p.fields.id) = false) :
    epicTreeAux allBeads allBeads.length p ∈ buildEpicHierarchy allBeads := by
  have hmem : epicTreeAux allBeads allBeads.length p ∈
      ((epicBeads allBeads).filter
        (fun e => !((childEpicIds allBeads).contains e.fields.id))).map
      (fun e => epicTreeAux allBeads allBeads.length e) := by
    refine List.mem_map.mpr ⟨p, ?_, rfl⟩
    refine List.mem_filter.mpr ⟨hp, ?_⟩
    simp only [Bool.not_eq_true', hun]
  simp only [buildEpicHierarchy]
  by_cases ho : 0 < (orphanBeads allBeads).length
  · rw [if_pos ho]
    exact List.mem_append_left _ hmem
  · rw [if_neg ho]
    exact hmem

theorem epicSubtree_in_forest {allBeads : List BdBead} (hco : Coherent allBeads)
    (rank : String → Nat)
    (hclaim : ∀ pr ∈ epicClaims allBeads, rank pr.1 < rank pr.2)
    (hbound : ∀ e ∈ epicBeads allBeads, rank e.fields.id < allBeads.length) :
    ∀ e ∈ epicBeads allBeads, ∀ i ∈ collectIds (epicTreeAux allBeads 0 e),
      i ∈ collectIdsList (buildEpicHierarchy allBeads) := by
  intro e he i hi
  obtain ⟨p, k, hp, hpun, hreach, hkb⟩ :=
    epicReach_exists hco rank allBeads.length hclaim hbound e he
  have hk : k < allBeads.length := by
    have := hbound p hp
    omega
  have hi' := epicReach_collect hreach allBeads.length hk i hi
  rw [mem_collectIdsList]
  exact ⟨epicTreeAux allBeads allBeads.length p, topLevel_tree_in_forest hp hpun, hi'⟩

theorem parentBeads_ids_nodup {allBeads : List BdBead} (hco : Coherent allBeads) :
    ((parentBeads allBeads).map (fun b => b.fields.id)).Nodup := by
  have h1 : (parentBeads allBeads).Sublist allBeads :=
    ((List.filter_sublist _).trans (List.filter_sublist _))
  exact hco.nodup.sublist (h1.map _)

theorem childrenByParent_keys_nodup {allBeads : List BdBead} (hco : Coherent allBeads) :
    ((childrenByParent allBeads).map Prod.fst).Nodup := by
  have h1 : (childrenByParent allBeads).Sublist
      ((parentBeads allBeads).map
        (fun parent => (parent.fields.id, liveParentChild parent.dependents))) :=
    List.filter_sublist _
  have h2 : ((childrenByParent allBeads).map Prod.fst).Sublist
      (((parentBeads allBeads).map
        (fun parent => (parent.fields.id, liveParentChild parent.dependents))).map Prod.fst) :=
    h1.map _
  refine List.Nodup.sublist h2 ?_
  rw [List.map_map]
  exact parentBeads_ids_nodup hco

theorem subtask_root {allBeads : List BdBead} (hco : Coherent allBeads)
    (dep : String → Nat)
    (hdep : ∀ pe ∈ childrenByParent allBeads, ∀ c ∈ pe.2,
      dep c.id = dep pe.1 + 1 ∧ dep c.id ≤ 5) :
    ∀ cid : String, ∃ rid k, SubReach allBeads rid cid k ∧ k ≤ dep cid ∧
      rid ∉ beadsUnderParents allBeads ∧
      (rid = cid ∨ rid ∈ (parentBeads allBeads).map (fun p => p.fields.id)) := by
  have key : ∀ (m : Nat) (cid : String), dep cid ≤ m →
      ∃ rid k, SubReach allBeads rid cid k ∧ k ≤ dep cid ∧
        rid ∉ beadsUnderParents allBeads ∧
        (rid = cid ∨ rid ∈ (parentBeads allBeads).map (fun p => p.fields.id)) := by
    intro m
    induction m using Nat.strong_induction_on with
    | _ m ih =>
      intro cid hm
      by_cases hup : cid ∈ beadsUnderParents allBeads
      · simp only [beadsUnderParents, List.mem_flatMap] at hup
        obtain ⟨pe, hpe, hcid⟩ := hup
        obtain ⟨c, hc, hcc⟩ := List.mem_map.mp hcid
        obtain ⟨hstep, hle5⟩ := hdep pe hpe c hc
        rw [hcc] at hstep hle5
        have hdp : dep pe.1 < dep cid := by omega
        have hm1 : 0 < m := by omega
        obtain ⟨rid, k, hreach, hkb, hrun, hrcase⟩ :=
          ih (m - 1) (by omega) pe.1 (by omega)
        have hpeval : mapGet (childrenByParent allBeads) pe.1 = some pe.2 := by
          have : (pe.1, pe.2) ∈ childrenByParent allBeads := by
            cases pe
            exact hpe
          exact mapGet_of_nodup_keys (childrenByParent_keys_nodup hco) this
        have hreach' : SubReach allBeads rid cid (k + 1) := by
          refine hreach.snocSub ⟨c, ?_, hcc⟩
          rw [hpeval]
          exact hc
        refine ⟨rid, k + 1, hreach', by omega, hrun, ?_⟩
        right
        rcases hrcase with h | h
        · subst h
          obtain ⟨p, hp, hpeq⟩ := mem_childrenByParent hpe
          refine List.mem_map.mpr ⟨p, hp, ?_⟩
          rw [hpeq]
        · exact h
      · exact ⟨cid, 0, SubReach.refl cid, by omega, hup, Or.inl rfl⟩
  intro cid
  exact key (dep cid) cid (Nat.le_refl _)

theorem standalone_in_forest {allBeads : List BdBead}
    (h : 0 < (orphanBeads allBeads).length) :
    standaloneEpic allBeads ∈ buildEpicHierarchy allBeads := by
  simp only [buildEpicHierarchy]
  rw [if_pos h]
  exact List.mem_append_right _ (List.mem_singleton.mpr rfl)

theorem orphan_subtree_in_forest {allBeads : List BdBead} {b : BdBead}
    (hb : b ∈ orphanBeads allBeads) :
    ∀ (q : String) (k : Nat), SubReach allBeads b.fields.id q k → k ≤ 5 →
      q ∈ collectIdsList (buildEpicHierarchy allBeads) := by
  intro q k hreach hk
  have hlen : 0 < (orphanBeads allBeads).length :=
    List.length_pos.mpr (List.ne_nil_of_mem hb)
  have hq : q ∈ collectIds
      (buildBeadAux (childrenByParent allBeads) 5 b.fields) :=
    subReach_collect hreach 5 hk b.fields rfl
  rw [mem_collectIdsList]
  refine ⟨standaloneEpic allBeads, standalone_in_forest hlen, ?_⟩
  simp only [standaloneEpic, collectIds]
  refine List.mem_cons.mpr (Or.inr (List.mem_append.mpr (Or.inl ?_)))
  rw [mem_collectIdsList]
  exact ⟨buildBeadWithChildren (childrenByParent allBeads) b.fields 0,
    List.mem_map.mpr ⟨b, hb, rfl⟩, hq⟩

theorem underEpic_subtree_in_forest {allBeads : List BdBead} (hco : Coherent allBeads)
    (rank : String → Nat)
    (hclaim : ∀ pr ∈ epicClaims allBeads, rank pr.1 < rank pr.2)
    (hbound : ∀ e ∈ epicBeads allBeads, rank e.fields.id < allBeads.length)
    {br : BdBead} (hbr : br ∈ allBeads) (hbrt : (br.fields.issue_type == "epic") = false)
    (hue : br.fields.id ∈ beadsUnderEpics allBeads) :
    ∀ (q : String) (k : Nat), SubReach allBeads br.fields.id q k → k ≤ 5 →
      q ∈ collectIdsList (buildEpicHierarchy allBeads) := by
  intro q k hreach hk
  simp only [beadsUnderEpics, List.mem_flatMap] at hue
  obtain ⟨e, he, hdm⟩ := hue
  obtain ⟨d, hd, hdid⟩ := List.mem_map.mp hdm
  obtain ⟨_, r, hr, hagree⟩ := hco.deps e (epicBeads_subset he) d hd
  obtain ⟨hidr, hitr, _, _, _⟩ := agreeModDep_fields hagree
  have hrb : r = br := allIds_nodup_unique hco.nodup r hr br hbr (by rw [← hidr, hdid])
  have hdt : (d.issue_type == "epic") = false := by
    rw [hitr, hrb]
    exact hbrt
  have hdlive : d ∈ liveParentChild e.dependents := by
    rw [liveParentChild_eq_of_coherent hco (epicBeads_subset he)]
    exact hd
  have hfid : ((mapGet (beadById allBeads) d.id).getD d).id = br.fields.id := by
    cases hmg : mapGet (beadById allBeads) d.id with
    | some f =>
      obtain ⟨b', _, hf, hk'⟩ := mem_beadById hmg
      simp only [Option.getD_some]
      rw [hf, ← hk', hdid]
    | none =>
      simp only [Option.getD_none]
      exact hdid
  have hbuilt : setParentId
      (buildBeadWithChildren (childrenByParent allBeads)
        ((mapGet (beadById allBeads) d.id).getD d) 0) e.fields.id ∈
      epicChildren allBeads e := by
    simp only [epicChildren, List.mem_filterMap]
    exact ⟨d, hdlive, by rw [if_neg (by simp [hdt] : ¬(d.issue_type == "epic") = true)]⟩
  have hq : q ∈ collectIds
      (buildBeadAux (childrenByParent allBeads) 5
        ((mapGet (beadById allBeads) d.id).getD d)) :=
    subReach_collect hreach 5 hk _ hfid
  refine epicSubtree_in_forest hco rank hclaim hbound e he q ?_
  simp only [epicTreeAux, collectIds]
  refine List.mem_cons.mpr (Or.inr (List.mem_append.mpr (Or.inl ?_)))
  rw [mem_collectIdsList]
  refine ⟨_, hbuilt, ?_⟩
  rw [collectIds_setParentId]
  exact hq

theorem epicAttrs_id (allBeads : List BdBead) (e : BdBead) :
    (epicAttrs allBeads e).id = e.fields.id := rfl

theorem buildEpicHierarchy_complete {allBeads : List BdBead} (hco : Coherent allBeads)
    (rank dep : String → Nat)
    (hclaim : ∀ pr ∈ epicClaims allBeads, rank pr.1 < rank pr.2)
    (hbound : ∀ e ∈ epicBeads allBeads, rank e.fields.id < allBeads.length)
    (hdep : ∀ pe ∈ childrenByParent allBeads, ∀ c ∈ pe.2,
      dep c.id = dep pe.1 + 1 ∧ dep c.id ≤ 5) :
    ∀ b ∈ allBeads, b.fields.id ∈ collectIdsList (buildEpicHierarchy allBeads) := by
  intro b hb
  by_cases hbe : (b.fields.issue_type == "epic") = true
  · have hbeM : b ∈ epicBeads allBeads := List.mem_filter.mpr ⟨hb, hbe⟩
    refine epicSubtree_in_forest hco rank hclaim hbound b hbeM b.fields.id ?_
    simp only [epicTreeAux, collectIds]
    exact List.mem_cons.mpr (Or.inl rfl)
  · have hbne : b ∈ nonEpicBeads allBeads := by
      refine List.mem_filter.mpr ⟨hb, ?_⟩
      simp only [bne_iff_ne, ne_eq]
      simpa using hbe
    by_cases hup : b.fields.id ∈ beadsUnderParents allBeads
    · have hdep5 : dep b.fields.id ≤ 5 := by
        simp only [beadsUnderParents, List.mem_flatMap] at hup
        obtain ⟨pe, hpe, hm⟩ := hup
        obtain ⟨c, hc, hcc⟩ := List.mem_map.mp hm
        have := (hdep pe hpe c hc).2
        rw [hcc] at this
        exact this
      obtain ⟨rid, k, hreach, hkb, hrun, hrcase⟩ := subtask_root hco dep hdep b.fields.id
      have hk5 : k ≤ 5 := by omega
      rcases hrcase with hreq | hrid
      · exact absurd (hreq ▸ hup) hrun
      · obtain ⟨p, hp, hpid⟩ := List.mem_map.mp hrid
        have hpne : (p.fields.issue_type == "epic") = false := by
          have := (List.mem_filter.mp (List.mem_filter.mp hp).1).2
          simpa using this
        rw [← hpid] at hreach hrun
        by_cases hue : p.fields.id ∈ beadsUnderEpics allBeads
        · exact underEpic_subtree_in_forest hco rank hclaim hbound
            (parentBeads_subset hp) hpne hue b.fields.id k hreach hk5
        · have hporph : p ∈ orphanBeads allBeads := by
            refine List.mem_filter.mpr ⟨(List.mem_filter.mp hp).1, ?_⟩
            simp only [Bool.and_eq_true, Bool.not_eq_true']
            constructor
            · simpa using hue
            · simpa using hrun
          exact orphan_subtree_in_forest hporph b.fields.id k hreach hk5
    · by_cases hue : b.fields.id ∈ beadsUnderEpics allBeads
      · exact underEpic_subtree_in_forest hco rank hclaim hbound hb
          (by simpa using hbe) hue b.fields.id 0 (SubReach.refl _) (by omega)
      · have hborph : b ∈ orphanBeads allBeads := by
          refine List.mem_filter.mpr ⟨hbne, ?_⟩
          simp only [Bool.and_eq_true, Bool.not_eq_true']
          constructor
          · simpa using hue
          · simpa using hup
        exact orphan_subtree_in_forest hborph b.fields.id 0 (SubReach.refl _) (by omega)

theorem liveIds_eq {allBeads : List BdBead} (hco : Coherent allBeads) :
    liveIds allBeads = allIds allBeads := by
  unfold liveIds allIds
  congr 1
  rw [List.filter_eq_self]
  intro b hb
  obtain ⟨h1, h2⟩ := hco.live b hb
  simp [h1, h2, truthyStr]

theorem buildEpicHierarchy_subset {allBeads : List BdBead} (hco : Coherent allBeads) :
    ∀ i ∈ collectIdsList (buildEpicHierarchy allBeads),
      i ∈ allIds allBeads ∨ (i = "_standalone" ∧ 0 < (orphanBeads allBeads).length) := by
  intro i hi
  rw [mem_collectIdsList] at hi
  obtain ⟨t, ht, hit⟩ := hi
  have htop : ∀ t', t' ∈ ((epicBeads allBeads).filter
      (fun e => !((childEpicIds allBeads).contains e.fields.id))).map
      (fun e => epicTreeAux allBeads allBeads.length e) →
      i ∈ collectIds t' → i ∈ allIds allBeads := by
    intro t' ht' hit'
    obtain ⟨e, he, rfl⟩ := List.mem_map.mp ht'
    exact epicTreeAux_collect_subset hco allBeads.length e (List.mem_filter.mp he).1 i hit'
  simp only [buildEpicHierarchy] at ht
  by_cases ho : 0 < (orphanBeads allBeads).length
  · rw [if_pos ho] at ht
    rcases List.mem_append.mp ht with ht | ht
    · exact Or.inl (htop t ht hit)
    · rw [List.mem_singleton] at ht
      subst ht
      rcases standalone_collect_subset hco i hit with h | h
      · exact Or.inr ⟨h, ho⟩
      · exact Or.inl h
  · rw [if_neg ho] at ht
    exact Or.inl (htop t ht hit)

/-- C2 (amended): for every coherent flat list with dependents — unique
ids, no tombstoned/deleted records, every recorded dependent edge a live
`parent-child` edge agreeing with a flat-list record, an acyclic child-
epic claim graph (witnessed by a rank function) and a recorded subtask
relation of uniform depth at most 5 (witnessed by a depth function) —
the ids reachable from `buildEpicHierarchy` are exactly the
non-tombstoned/deleted input ids, plus the synthetic `_standalone` id
exactly when orphans exist.  Unconditionally, every non-epic issue that
is neither claimed under an epic nor claimed as a subtask (and has no
parent reference) is collected under the `_standalone` epic. -/
theorem buildEpicHierarchy_roundtrip (allBeads : List BdBead) (hco : Coherent allBeads)
    (rank dep : String → Nat)
    (hclaim : ∀ pr ∈ epicClaims allBeads, rank pr.1 < rank pr.2)
    (hbound : ∀ e ∈ epicBeads allBeads, rank e.fields.id < allBeads.length)
    (hdep : ∀ pe ∈ childrenByParent allBeads, ∀ c ∈ pe.2,
      dep c.id = dep pe.1 + 1 ∧ dep c.id ≤ 5) :
    (∀ i : String, i ∈ collectIdsList (buildEpicHierarchy allBeads) ↔
      (i ∈ liveIds allBeads ∨
        (i = "_standalone" ∧ 0 < (orphanBeads allBeads).length))) ∧
    (∀ b ∈ nonEpicBeads allBeads, b.fields.id ∉ beadsUnderEpics allBeads →
      b.fields.id ∉ beadsUnderParents allBeads → b.fields.parent = none →
      ∃ st ∈ buildEpicHierarchy allBeads, st.id = "_standalone" ∧
        b.fields.id ∈ collectIds st) := by
  constructor
  · intro i
    rw [liveIds_eq hco]
    constructor
    · exact buildEpicHierarchy_subset hco i
    · rintro (h | ⟨h, ho⟩)
      · obtain ⟨b, hb, rfl⟩ := List.mem_map.mp h
        exact buildEpicHierarchy_complete hco rank dep hclaim hbound hdep b hb
      · subst h
        rw [mem_collectIdsList]
        refine ⟨standaloneEpic allBeads, standalone_in_forest ho, ?_⟩
        simp only [standaloneEpic, collectIds]
        exact List.mem_cons.mpr (Or.inl rfl)
  · intro b hb hue hup _
    have hborph : b ∈ orphanBeads allBeads := by
      refine List.mem_filter.mpr ⟨hb, ?_⟩
      simp only [Bool.and_eq_true, Bool.not_eq_true']
      exact ⟨by simpa using hue, by simpa using hup⟩
    have hlen : 0 < (orphanBeads allBeads).length :=
      List.length_pos.mpr (List.ne_nil_of_mem hborph)
    refine ⟨standaloneEpic allBeads, standalone_in_forest hlen, rfl, ?_⟩
    have hq : b.fields.id ∈ collectIds
        (buildBeadAux (childrenByParent allBeads) 5 b.fields) :=
      subReach_collect (SubReach.refl _) 5 (by omega) b.fields rfl
    simp only [standaloneEpic, collectIds]
    refine List.mem_cons.mpr (Or.inr (List.mem_append.mpr (Or.inl ?_)))
    rw [mem_collectIdsList]
    exact ⟨buildBeadWithChildren (childrenByParent allBeads) b.fields 0,
      List.mem_map.mpr ⟨b, hborph, rfl⟩, hq⟩

/-- A plain raw record for concrete builder inputs. -/
def mkRec (id ty : String) : BdFields :=
  { id := id, title := id, description := none, status := "open", priority := 2,
    issue_type := ty, assignee := none, labels := [], parent := none,
    created_at := 0, updated_at := 0, deleted_at := none, acceptance_criteria := none,
    dependency_type := none, dependent_count := none }

/-- Flat list where epic `E` records issue `B` as a `blocks` dependent. -/
def blockedInput : List BdBead :=
  [⟨mkRec "E" "epic", [{ mkRec "B" "task" with dependency_type := some "blocks" }]⟩,
    ⟨mkRec "B" "task", []⟩]

/-- C2 counterexample: a live non-epic issue recorded as a `blocks`
dependent of an epic is claimed (so it is no orphan) but never attached
to the epic's children, and therefore unreachable from the built forest
— the round trip loses `B`. -/
theorem buildEpicHierarchy_roundtrip_counterexample :
    "B" ∈ liveIds blockedInput ∧
    "B" ∉ collectIdsList (buildEpicHierarchy blockedInput) := by
  constructor
  · decide
  · decide

instance (d r : BdFields) : Decidable (agreeModDep d r) := by
  unfold agreeModDep
  infer_instance

/-- Coherent flat list: epic `E` with parent-child dependent `B`, and an
orphan `O`. -/
def goodInput : List BdBead :=
  [⟨mkRec "E" "epic",
      [{ mkRec "B" "task" with dependency_type := some "parent-child" }]⟩,
    ⟨mkRec "B" "task", []⟩, ⟨mkRec "O" "task", []⟩]

/-- C2 witness: on the coherent concrete input, both the claimed bead
`B` and the orphan `O` are reachable from the built forest. -/
theorem buildEpicHierarchy_roundtrip_witness :
    "B" ∈ collectIdsList (buildEpicHierarchy goodInput) ∧
    "O" ∈ collectIdsList (buildEpicHierarchy goodInput) := by
  have h := buildEpicHierarchy_roundtrip goodInput
    ⟨by decide, by decide, by decide, by decide⟩ (fun _ => 0) (fun _ => 0)
    (by decide) (by decide) (by decide)
  exact ⟨(h.1 "B").mpr (Or.inl (by decide)), (h.1 "O").mpr (Or.inl (by decide))⟩

/-- The raw `issue_type` union of the TS `BdBead` interface. -/
def bdIssueTypes : List String := ["bug", "feature", "task", "epic", "chore"]

mutual

/-- No node anywhere in a `children` sequence of this tree has type
`"epic"` (checked through `children` and `childEpics` recursively). -/
def childrenEpicFree : Bead → Bool
  | .node _ cs es => childrenEpicFreeCs cs && childrenEpicFreeEs es

def childrenEpicFreeCs : List Bead → Bool
  | [] => true
  | c :: rest =>
    (c.type != "epic") && childrenEpicFree c && childrenEpicFreeCs rest

def childrenEpicFreeEs : List Bead → Bool
  | [] => true
  | e :: rest => childrenEpicFree e && childrenEpicFreeEs rest

end

theorem mapType_ne_epic {t : String} (hu : t ∈ bdIssueTypes) (ht : t ≠ "epic") :
    mapType t ≠ "epic" := by
  simp only [bdIssueTypes, List.mem_cons, List.not_mem_nil, or_false] at hu
  rcases hu with rfl | rfl | rfl | rfl | rfl
  · decide
  · decide
  · decide
  · exact absurd rfl ht
  · decide

theorem buildBeadAux_type (cbp : List (String × List BdFields)) (fuel : Nat)
    (x : BdFields) :
    (buildBeadAux cbp fuel x).type = mapType x.issue_type := by
  cases fuel with
  | zero => rfl
  | succ n => rfl

theorem childrenEpicFreeCs_iff {l : List Bead} :
    childrenEpicFreeCs l = true ↔
      ∀ c ∈ l, c.type ≠ "epic" ∧ childrenEpicFree c = true := by
  induction l with
  | nil => simp [childrenEpicFreeCs]
  | cons c rest ih =>
    simp only [childrenEpicFreeCs, Bool.and_eq_true, ih, bne_iff_ne, ne_eq]
    constructor
    · rintro ⟨⟨h1, h2⟩, h3⟩ x hx
      rcases List.mem_cons.mp hx with hx | hx
      · subst hx; exact ⟨h1, h2⟩
      · exact h3 x hx
    · intro h
      exact ⟨⟨(h c (List.mem_cons_self _ _)).1, (h c (List.mem_cons_self _ _)).2⟩,
        fun x hx => h x (List.mem_cons_of_mem _ hx)⟩

theorem childrenEpicFreeEs_iff {l : List Bead} :
    childrenEpicFreeEs l = true ↔ ∀ e ∈ l, childrenEpicFree e = true := by
  induction l with
  | nil => simp [childrenEpicFreeEs]
  | cons c rest ih =>
    simp only [childrenEpicFreeEs, Bool.and_eq_true, ih]
    constructor
    · rintro ⟨h1, h2⟩ x hx
      rcases List.mem_cons.mp hx with hx | hx
      · subst hx; exact h1
      · exact h2 x hx
    · intro h
      exact ⟨h c (List.mem_cons_self _ _), fun x hx => h x (List.mem_cons_of_mem _ hx)⟩

theorem buildBeadAux_epicFree {allBeads : List BdBead}
    (hcbp : ∀ pe ∈ childrenByParent allBeads, ∀ c ∈ pe.2,
      c.issue_type ≠ "epic" ∧ c.issue_type ∈ bdIssueTypes) :
    ∀ (fuel : Nat) (x : BdFields),
      childrenEpicFree (buildBeadAux (childrenByParent allBeads) fuel x) = true := by
  intro fuel
  induction fuel with
  | zero =>
    intro x
    simp [buildBeadAux, convertBead, childrenEpicFree, childrenEpicFreeCs,
      childrenEpicFreeEs]
  | succ n ih =>
    intro x
    simp only [buildBeadAux, convertBead, childrenEpicFree, Bool.and_eq_true]
    constructor
    · rw [childrenEpicFreeCs_iff]
      intro c hc
      obtain ⟨entry, hentry, rfl⟩ := List.mem_map.mp hc
      have hchain : entry.issue_type ≠ "epic" ∧ entry.issue_type ∈ bdIssueTypes := by
        cases hmg : mapGet (childrenByParent allBeads) x.id with
        | none => simp [hmg] at hentry
        | some vals =>
          have hpe := mapGet_mem hmg
          simp only [hmg, Option.getD_some] at hentry
          exact hcbp _ hpe entry hentry
      refine ⟨?_, ih entry⟩
      rw [buildBeadAux_type]
      exact mapType_ne_epic hchain.2 hchain.1
    · rw [childrenEpicFreeEs_iff]
      intro e he
      cases he

theorem setParentId_type (b : Bead) (p : String) : (setParentId b p).type = b.type := by
  cases b
  rfl

theorem childrenEpicFree_setParentId (b : Bead) (p : String) :
    childrenEpicFree (setParentId b p) = childrenEpicFree b := by
  cases b
  rfl

theorem epicChildren_epicFree {allBeads : List BdBead}
    (hnd : (allBeads.map (fun b => b.fields.id)).Nodup)
    (hdeps : ∀ b ∈ allBeads, ∀ d ∈ b.dependents, ∃ r ∈ allBeads, agreeModDep d r.fields)
    (hunion : ∀ b ∈ allBeads, b.fields.issue_type ∈ bdIssueTypes)
    (hnosub : ∀ pe ∈ childrenByParent allBeads, ∀ c ∈ pe.2, c.issue_type ≠ "epic")
    {e : BdBead} (he : e ∈ allBeads) :
    childrenEpicFreeCs (epicChildren allBeads e) = true := by
  have hcbp : ∀ pe ∈ childrenByParent allBeads, ∀ c ∈ pe.2,
      c.issue_type ≠ "epic" ∧ c.issue_type ∈ bdIssueTypes := by
    intro pe hpe c hc
    refine ⟨hnosub pe hpe c hc, ?_⟩
    obtain ⟨p, hp, hpeq⟩ := mem_childrenByParent hpe
    have hc' : c ∈ p.dependents := by
      rw [hpeq] at hc
      exact liveParentChild_subset hc
    obtain ⟨r, hr, hagree⟩ := hdeps p (parentBeads_subset hp) c hc'
    obtain ⟨_, hit, _, _, _⟩ := agreeModDep_fields hagree
    rw [hit]
    exact hunion r hr
  rw [childrenEpicFreeCs_iff]
  intro built hbuilt
  simp only [epicChildren, List.mem_filterMap] at hbuilt
  obtain ⟨d, hd, hif⟩ := hbuilt
  by_cases hdt : (d.issue_type == "epic") = true
  · rw [if_pos hdt] at hif; cases hif
  · rw [if_neg hdt] at hif
    cases hif
    have hdne : d.issue_type ≠ "epic" := by simpa using hdt
    have hfull : ((mapGet (beadById allBeads) d.id).getD d).issue_type ≠ "epic" ∧
        ((mapGet (beadById allBeads) d.id).getD d).issue_type ∈ bdIssueTypes := by
      obtain ⟨r, hr, hagree⟩ :=
        hdeps e he d (liveParentChild_subset hd)
      obtain ⟨hid, hit, _, _, _⟩ := agreeModDep_fields hagree
      cases hmg : mapGet (beadById allBeads) d.id with
      | some f =>
        obtain ⟨b', hb', hf, hkey⟩ := mem_beadById hmg
        have hrb : r = b' := List.inj_on_of_nodup_map hnd hr hb' (by rw [← hid, hkey])
        simp only [Option.getD_some]
        rw [hf, ← hrb, ← hit]
        exact ⟨hdne, by rw [hit, hrb]; exact hunion b' hb'⟩
      | none =>
        simp only [Option.getD_none]
        refine ⟨hdne, ?_⟩
        rw [hit]
        exact hunion r hr
    constructor
    · rw [setParentId_type, buildBeadWithChildren, buildBeadAux_type]
      exact mapType_ne_epic hfull.2 hfull.1
    · rw [childrenEpicFree_setParentId, buildBeadWithChildren]
      exact buildBeadAux_epicFree hcbp _ _

theorem epicTreeAux_epicFree {allBeads : List BdBead}
    (hnd : (allBeads.map (fun b => b.fields.id)).Nodup)
    (hdeps : ∀ b ∈ allBeads, ∀ d ∈ b.dependents, ∃ r ∈ allBeads, agreeModDep d r.fields)
    (hunion : ∀ b ∈ allBeads, b.fields.issue_type ∈ bdIssueTypes)
    (hnosub : ∀ pe ∈ childrenByParent allBeads, ∀ c ∈ pe.2, c.issue_type ≠ "epic") :
    ∀ (fuel : Nat) (e : BdBead), e ∈ allBeads →
      childrenEpicFree (epicTreeAux allBeads fuel e) = true := by
  intro fuel
  induction fuel with
  | zero =>
    intro e he
    simp only [epicTreeAux, childrenEpicFree, Bool.and_eq_true]
    exact ⟨epicChildren_epicFree hnd hdeps hunion hnosub he, rfl⟩
  | succ n ih =>
    intro e he
    simp only [epicTreeAux, childrenEpicFree, Bool.and_eq_true]
    refine ⟨epicChildren_epicFree hnd hdeps hunion hnosub he, ?_⟩
    rw [childrenEpicFreeEs_iff]
    intro t ht
    obtain ⟨c, hc, rfl⟩ := List.mem_map.mp ht
    exact ih c (epicBeads_subset (mem_epicChildEpicRecords hc))

/-- C3 (amended): in every forest built from a flat list with unique
ids whose dependents entries agree with their flat-list records, whose
issue types lie in the raw `issue_type` union, and in which no epic is
recorded as a parent-child dependent of a non-epic issue, no node of
type `"epic"` ever appears in any `children` sequence — epics appear
only in `childEpics`. -/
theorem buildEpicHierarchy_no_epic_in_children (allBeads : List BdBead)
    (hnd : (allBeads.map (fun b => b.fields.id)).Nodup)
    (hdeps : ∀ b ∈ allBeads, ∀ d ∈ b.dependents, ∃ r ∈ allBeads, agreeModDep d r.fields)
    (hunion : ∀ b ∈ allBeads, b.fields.issue_type ∈ bdIssueTypes)
    (hnosub : ∀ pe ∈ childrenByParent allBeads, ∀ c ∈ pe.2, c.issue_type ≠ "epic") :
    ∀ t ∈ buildEpicHierarchy allBeads, childrenEpicFree t = true := by
  intro t ht
  have htop : ∀ t', t' ∈ ((epicBeads allBeads).filter
      (fun e => !((childEpicIds allBeads).contains e.fields.id))).map
      (fun e => epicTreeAux allBeads allBeads.length e) →
      childrenEpicFree t' = true := by
    intro t' ht'
    obtain ⟨e, he, rfl⟩ := List.mem_map.mp ht'
    exact epicTreeAux_epicFree hnd hdeps hunion hnosub allBeads.length e
      (epicBeads_subset (List.mem_filter.mp he).1)
  have hstand : childrenEpicFree (standaloneEpic allBeads) = true := by
    simp only [standaloneEpic, childrenEpicFree, Bool.and_eq_true]
    refine ⟨?_, rfl⟩
    rw [childrenEpicFreeCs_iff]
    intro built hbuilt
    obtain ⟨b, hb, rfl⟩ := List.mem_map.mp hbuilt
    have hbne : b ∈ nonEpicBeads allBeads := (List.mem_filter.mp hb).1
    have hbt : b.fields.issue_type ≠ "epic" := by
      have := (List.mem_filter.mp hbne).2
      simpa using this
    have hcbp : ∀ pe ∈ childrenByParent allBeads, ∀ c ∈ pe.2,
        c.issue_type ≠ "epic" ∧ c.issue_type ∈ bdIssueTypes := by
      intro pe hpe c hc
      refine ⟨hnosub pe hpe c hc, ?_⟩
      obtain ⟨p, hp, hpeq⟩ := mem_childrenByParent hpe
      have hc' : c ∈ p.dependents := by
        rw [hpeq] at hc
        exact liveParentChild_subset hc
      obtain ⟨r, hr, hagree⟩ := hdeps p (parentBeads_subset hp) c hc'
      obtain ⟨_, hit, _, _, _⟩ := agreeModDep_fields hagree
      rw [hit]
      exact hunion r hr
    constructor
    · rw [buildBeadWithChildren, buildBeadAux_type]
      exact mapType_ne_epic (hunion b (nonEpicBeads_subset hbne)) hbt
    · rw [buildBeadWithChildren]
      exact buildBeadAux_epicFree hcbp _ _
  simp only [buildEpicHierarchy] at ht
  by_cases ho : 0 < (orphanBeads allBeads).length
  · rw [if_pos ho] at ht
    rcases List.mem_append.mp ht with ht | ht
    · exact htop t ht
    · rw [List.mem_singleton] at ht
      subst ht
      exact hstand
  · rw [if_neg ho] at ht
    exact htop t ht

/-- Flat list where non-epic task `T` records the epic `E2` as a
parent-child dependent (a subtask that is an epic). -/
def epicSubtaskInput : List BdBead :=
  [⟨{ mkRec "T" "task" with dependent_count := some 1 },
      [{ mkRec "E2" "epic" with dependency_type := some "parent-child" }]⟩,
    ⟨mkRec "E2" "epic", []⟩]

/-- C3 counterexample: with the epic `E2` recorded as a parent-child
dependent of the task `T`, the built forest materializes an epic-typed
node inside `T`'s subtask `children` — the invariant fails on this
input. -/
theorem buildEpicHierarchy_no_epic_in_children_counterexample :
    (buildEpicHierarchy epicSubtaskInput).all childrenEpicFree = false := by
  decide

/-- C3 witness: on the coherent concrete input the invariant holds for
the built `E` tree. -/
theorem buildEpicHierarchy_no_epic_in_children_witness :
    childrenEpicFree
      (epicTreeAux goodInput goodInput.length
        ⟨mkRec "E" "epic",
          [{ mkRec "B" "task" with dependency_type := some "parent-child" }]⟩) = true :=
  buildEpicHierarchy_no_epic_in_children goodInput (by decide)
    (by decide) (by decide) (by decide)
    (epicTreeAux goodInput goodInput.length
      ⟨mkRec "E" "epic",
        [{ mkRec "B" "task" with dependency_type := some "parent-child" }]⟩)
    (by decide)
